import Mathlib

/-!
Verification development for the meeting-minutes application
(`src/App.tsx`, `src/services/geminiService.ts`, `src/types.ts`).

The JavaScript string primitives the source relies on are modelled over
`List Char`:
`String.prototype.trim`, `String.prototype.split(sep)` (substring separator,
non-overlapping occurrences located left to right), `Array.prototype.join(sep)`,
`String.prototype.includes`, `String.prototype.startsWith`, and
`String.prototype.replace` specialised to the patterns the source uses.
-/

/-- ASCII whitespace recognised by JavaScript `trim` and by the regex class
`\s` (the documents handled by the app only contain these whitespace
characters). -/
def isWs (c : Char) : Bool :=
  c == ' ' || c == '\t' || c == '\n' || c == '\r' || c == '\x0b' || c == '\x0c'

/-- JavaScript `String.prototype.trim` over characters: drop leading and
trailing whitespace. -/
def jsTrimL (cs : List Char) : List Char :=
  ((cs.dropWhile isWs).reverse.dropWhile isWs).reverse

/-- JavaScript `String.prototype.trim`. -/
def jsTrim (s : String) : String := ⟨jsTrimL s.data⟩

/-- JavaScript `String.prototype.startsWith`. -/
def jsStartsWith (s pre : String) : Bool := pre.data.isPrefixOf s.data

/-- JavaScript `String.prototype.includes` over characters. -/
def containsSubL (pat : List Char) : List Char → Bool
  | [] => pat.isEmpty
  | x :: xs => pat.isPrefixOf (x :: xs) || containsSubL pat xs

/-- Fuel-bounded body of JavaScript `String.prototype.split(sep)` with a
substring separator: the next separator occurrence is located left to right
and scanning resumes after it (non-overlapping).  The result is independent
of `fuel` once `xs.length ≤ fuel`. -/
def splitSubGo (sep : List Char) : Nat → List Char → List (List Char)
  | _, [] => [[]]
  | 0, xs => [xs]
  | fuel + 1, x :: rest =>
    if sep ≠ [] ∧ sep.isPrefixOf (x :: rest) then
      [] :: splitSubGo sep fuel (List.drop sep.length (x :: rest))
    else
      match splitSubGo sep fuel rest with
      | [] => [[x]]
      | y :: ys => (x :: y) :: ys

/-- JavaScript `xs.split(sep)` for a non-empty substring separator `sep`. -/
def splitSub (sep xs : List Char) : List (List Char) :=
  splitSubGo sep xs.length xs

/-- JavaScript `Array.prototype.join(sep)` over character lists. -/
def joinSep (sep : List Char) : List (List Char) → List Char
  | [] => []
  | [x] => x
  | x :: y :: ys => x ++ sep ++ joinSep sep (y :: ys)

theorem splitSubGo_fuel (sep : List Char) :
    ∀ (fuel₁ fuel₂ : Nat) (xs : List Char),
      xs.length ≤ fuel₁ → xs.length ≤ fuel₂ →
      splitSubGo sep fuel₁ xs = splitSubGo sep fuel₂ xs := by
  intro fuel₁
  induction fuel₁ with
  | zero =>
    intro fuel₂ xs h₁ _
    have hxs : xs = [] := List.eq_nil_of_length_eq_zero (Nat.le_zero.mp h₁)
    subst hxs
    cases fuel₂ <;> rfl
  | succ f ih =>
    intro fuel₂ xs h₁ h₂
    cases xs with
    | nil => cases fuel₂ <;> rfl
    | cons x rest =>
      cases fuel₂ with
      | zero => simp at h₂
      | succ f₂ =>
        simp only [splitSubGo]
        by_cases hc : sep ≠ [] ∧ sep.isPrefixOf (x :: rest)
        · simp only [if_pos hc]
          have hseplen : 1 ≤ sep.length := by
            cases hsep : sep with
            | nil => exact absurd hsep hc.1
            | cons a as => simp [hsep]
          have h₁' : rest.length + 1 ≤ f + 1 := by simpa using h₁
          have h₂' : rest.length + 1 ≤ f₂ + 1 := by simpa using h₂
          have hdrop : (List.drop sep.length (x :: rest)).length ≤ f := by
            simp only [List.length_drop, List.length_cons]
            omega
          have hdrop₂ : (List.drop sep.length (x :: rest)).length ≤ f₂ := by
            simp only [List.length_drop, List.length_cons]
            omega
          rw [ih f₂ _ hdrop hdrop₂]
        · simp only [if_neg hc]
          have h₁' : rest.length + 1 ≤ f + 1 := by simpa using h₁
          have h₂' : rest.length + 1 ≤ f₂ + 1 := by simpa using h₂
          have hr₁ : rest.length ≤ f := by omega
          have hr₂ : rest.length ≤ f₂ := by omega
          rw [ih f₂ rest hr₁ hr₂]

theorem splitSub_nil (sep : List Char) : splitSub sep [] = [[]] := rfl

theorem splitSub_cons_pos (sep : List Char) (x : Char) (rest : List Char)
    (h : sep ≠ [] ∧ sep.isPrefixOf (x :: rest)) :
    splitSub sep (x :: rest) =
      [] :: splitSub sep (List.drop sep.length (x :: rest)) := by
  have hseplen : 1 ≤ sep.length := by
    cases hsep : sep with
    | nil => exact absurd hsep h.1
    | cons a as => simp [hsep]
  show splitSubGo sep (x :: rest).length (x :: rest) = _
  simp only [List.length_cons, splitSubGo, if_pos h]
  congr 1
  apply splitSubGo_fuel
  · simp only [List.length_drop, List.length_cons]; omega
  · exact Nat.le_refl _

theorem splitSub_cons_neg (sep : List Char) (x : Char) (rest : List Char)
    (h : ¬(sep ≠ [] ∧ sep.isPrefixOf (x :: rest))) :
    splitSub sep (x :: rest) =
      (match splitSub sep rest with
       | [] => [[x]]
       | y :: ys => (x :: y) :: ys) := by
  show splitSubGo sep (x :: rest).length (x :: rest) = _
  simp only [List.length_cons, splitSubGo, if_neg h]
  rfl

theorem splitSub_ne_nil (sep xs : List Char) : splitSub sep xs ≠ [] := by
  cases xs with
  | nil => simp [splitSub_nil]
  | cons x rest =>
    by_cases h : sep ≠ [] ∧ sep.isPrefixOf (x :: rest)
    · rw [splitSub_cons_pos sep x rest h]; simp
    · rw [splitSub_cons_neg sep x rest h]
      cases splitSub sep rest <;> simp

theorem containsSubL_cons_false {pat : List Char} {x : Char} {xs : List Char}
    (h : containsSubL pat (x :: xs) = false) :
    pat.isPrefixOf (x :: xs) = false ∧ containsSubL pat xs = false := by
  simp only [containsSubL, Bool.or_eq_false_iff] at h
  exact h

/-- When the separator never occurs, JavaScript `split` returns the whole
input as a single piece. -/
theorem splitSub_eq_single (sep : List Char) :
    ∀ xs : List Char, containsSubL sep xs = false → splitSub sep xs = [xs] := by
  intro xs
  induction xs with
  | nil => intro _; exact splitSub_nil sep
  | cons x rest ih =>
    intro h
    obtain ⟨hpre, hrest⟩ := containsSubL_cons_false h
    rw [splitSub_cons_neg sep x rest (by simp [hpre])]
    rw [ih hrest]

/-- When the separator does not begin anywhere inside `a` (including at
positions whose match would overlap into the explicit separator that
follows), the first split piece is exactly `a`. -/
theorem splitSub_append (sep : List Char) (hsep : sep ≠ []) :
    ∀ (a b : List Char),
      (∀ a₂, a₂ ≠ [] → a₂ <:+ a → sep.isPrefixOf (a₂ ++ sep ++ b) = false) →
      splitSub sep (a ++ sep ++ b) = a :: splitSub sep b := by
  intro a
  induction a with
  | nil =>
    intro b _
    cases sep with
    | nil => exact absurd rfl hsep
    | cons s ss =>
      have hshape : ([] : List Char) ++ (s :: ss) ++ b = s :: (ss ++ b) := by simp
      have hpre : (s :: ss).isPrefixOf (s :: (ss ++ b)) = true := by
        rw [List.isPrefixOf_iff_prefix]
        exact ⟨b, by simp⟩
      rw [hshape, splitSub_cons_pos (s :: ss) s (ss ++ b) ⟨hsep, hpre⟩]
      have hdrop : List.drop (s :: ss).length (s :: (ss ++ b)) = b := by
        have h2 : s :: (ss ++ b) = (s :: ss) ++ b := by simp
        rw [h2, List.drop_left]
      rw [hdrop]
  | cons x a' ih =>
    intro b h
    have hshape : (x :: a') ++ sep ++ b = x :: (a' ++ sep ++ b) := by simp
    have hx : sep.isPrefixOf ((x :: a') ++ sep ++ b) = false :=
      h (x :: a') (by simp) (List.suffix_refl _)
    have hnc : ¬(sep ≠ [] ∧ sep.isPrefixOf (x :: (a' ++ sep ++ b))) := by
      intro hcond
      have h2 := hcond.2
      rw [← hshape] at h2
      rw [hx] at h2
      exact Bool.noConfusion h2
    rw [hshape, splitSub_cons_neg sep x (a' ++ sep ++ b) hnc]
    have hrec : splitSub sep (a' ++ sep ++ b) = a' :: splitSub sep b := by
      apply ih
      intro a₂ hne hsuf
      exact h a₂ hne (hsuf.trans (List.suffix_cons x a'))
    rw [hrec]

theorem joinSep_splitSub_fueled (sep : List Char) (hsep : sep ≠ []) :
    ∀ (n : Nat) (xs : List Char), xs.length ≤ n →
      joinSep sep (splitSub sep xs) = xs := by
  intro n
  induction n with
  | zero =>
    intro xs h
    have hxs : xs = [] := List.eq_nil_of_length_eq_zero (Nat.le_zero.mp h)
    subst hxs
    rfl
  | succ n ih =>
    intro xs h
    cases xs with
    | nil => rfl
    | cons x rest =>
      have hseplen : 1 ≤ sep.length := by
        cases hs : sep with
        | nil => exact absurd hs hsep
        | cons a as => simp [hs]
      by_cases hc : sep ≠ [] ∧ sep.isPrefixOf (x :: rest)
      · rw [splitSub_cons_pos sep x rest hc]
        have hne := splitSub_ne_nil sep (List.drop sep.length (x :: rest))
        have hdl : (List.drop sep.length (x :: rest)).length ≤ n := by
          simp only [List.length_drop, List.length_cons]
          have : rest.length + 1 ≤ n + 1 := by simpa using h
          omega
        have hrec : joinSep sep (splitSub sep (List.drop sep.length (x :: rest))) =
            List.drop sep.length (x :: rest) := ih _ hdl
        obtain ⟨t, ht⟩ : sep <+: (x :: rest) := by
          rw [← List.isPrefixOf_iff_prefix]
          exact hc.2
        cases hzz : splitSub sep (List.drop sep.length (x :: rest)) with
        | nil => exact absurd hzz hne
        | cons z zs =>
          rw [hzz] at hrec
          show ([] : List Char) ++ sep ++ joinSep sep (z :: zs) = x :: rest
          rw [hrec]
          rw [← ht, List.drop_left]
          simp
      · rw [splitSub_cons_neg sep x rest hc]
        have hrl : rest.length ≤ n := by
          have : rest.length + 1 ≤ n + 1 := by simpa using h
          omega
        have hrec : joinSep sep (splitSub sep rest) = rest := ih rest hrl
        cases hzz : splitSub sep rest with
        | nil => exact absurd hzz (splitSub_ne_nil sep rest)
        | cons y ys =>
          rw [hzz] at hrec
          cases ys with
          | nil =>
            show joinSep sep [x :: y] = x :: rest
            have : joinSep sep [y] = y := rfl
            rw [this] at hrec
            show x :: y = x :: rest
            rw [hrec]
          | cons w ws =>
            show (x :: y) ++ sep ++ joinSep sep (w :: ws) = x :: rest
            have : joinSep sep (y :: w :: ws) = y ++ sep ++ joinSep sep (w :: ws) := rfl
            rw [this] at hrec
            rw [← hrec]
            simp

/-- Round trip of JavaScript `split` and `join` on the same separator. -/
theorem joinSep_splitSub (sep : List Char) (hsep : sep ≠ []) (xs : List Char) :
    joinSep sep (splitSub sep xs) = xs :=
  joinSep_splitSub_fueled sep hsep xs.length xs (Nat.le_refl _)

theorem dropWhile_append_dichotomy (p : Char → Bool) (l₁ l₂ : List Char) :
    (l₁ ++ l₂).dropWhile p =
      if (l₁.dropWhile p).isEmpty then l₂.dropWhile p else l₁.dropWhile p ++ l₂ := by
  induction l₁ with
  | nil => simp
  | cons x xs ih =>
    by_cases h : p x
    · simp only [List.cons_append, List.dropWhile_cons, h, if_true, ih]
    · simp [List.dropWhile_cons, h]

theorem jsTrimL_cons_ws {c : Char} (hc : isWs c = true) (B : List Char) :
    jsTrimL (c :: B) = jsTrimL B := by
  unfold jsTrimL
  rw [List.dropWhile_cons, if_pos hc]

theorem jsTrimL_append_ws {c : Char} (hc : isWs c = true) (S : List Char) :
    jsTrimL (S ++ [c]) = jsTrimL S := by
  unfold jsTrimL
  rw [dropWhile_append_dichotomy]
  by_cases h : (S.dropWhile isWs).isEmpty
  · rw [if_pos h]
    rw [List.isEmpty_iff] at h
    rw [h]
    simp [List.dropWhile_cons, hc]
  · rw [if_neg h]
    rw [List.reverse_append]
    simp only [List.reverse_cons, List.reverse_nil, List.nil_append, List.singleton_append,
      List.dropWhile_cons, hc, if_true]

/-- Character list of the `---` summary/body delimiter. -/
def threeDashes : List Char := ['-', '-', '-']

/-- Splitting of a raw minutes document into summary and body, from
`src/App.tsx`: `handleCopySummary` takes `minutes.split('---')[0].trim()`
as the summary, while `handleCopy` / `handleSendToNotion` take
`minutes.split('---').slice(1).join('---').trim()` as the body. -/
def splitSummaryAndBody (raw : String) : String × String :=
  let parts := splitSub threeDashes raw.data
  (⟨jsTrimL (parts.headD [])⟩, ⟨jsTrimL (joinSep threeDashes (parts.drop 1))⟩)

theorem isPrefixOf_cons_step (a b : Char) (as bs : List Char) :
    List.isPrefixOf (a :: as) (b :: bs) = ((a == b) && List.isPrefixOf as bs) := rfl

theorem isPrefixOf_cons_false {a b : Char} (h : (a == b) = false) (as bs : List Char) :
    List.isPrefixOf (a :: as) (b :: bs) = false := by
  rw [isPrefixOf_cons_step, h, Bool.false_and]

theorem containsSubL_suffix_false {pat : List Char} :
    ∀ {S : List Char}, containsSubL pat S = false →
      ∀ t, t <:+ S → pat.isPrefixOf t = false := by
  intro S
  induction S with
  | nil =>
    intro h t ht
    have hteq : t = [] := List.suffix_nil.mp ht
    subst hteq
    cases pat with
    | nil => simp [containsSubL] at h
    | cons p ps => rfl
  | cons x xs ih =>
    intro h t ht
    obtain ⟨hpre, hrest⟩ := containsSubL_cons_false h
    rcases List.suffix_cons_iff.mp ht with h1 | h2
    · subst h1; exact hpre
    · exact ih hrest t h2

/-- No suffix of `S ++ "\n"` can start a `---` match when `S` itself is
`---`-free: a match inside `S` would witness an occurrence, and a match
crossing the final newline would need `-` to equal a newline. -/
theorem threeDashes_junction (S b : List Char)
    (hS : containsSubL threeDashes S = false) :
    ∀ a₂, a₂ ≠ [] → a₂ <:+ S ++ ['\n'] →
      threeDashes.isPrefixOf (a₂ ++ threeDashes ++ b) = false := by
  intro a₂ hne hsuf
  rcases List.eq_nil_or_concat a₂ with hnil | ⟨t, c, htc⟩
  · exact absurd hnil hne
  subst htc
  simp only [List.concat_eq_append] at hne hsuf ⊢
  obtain ⟨u, hu⟩ := hsuf
  have hassoc : (u ++ t) ++ [c] = S ++ ['\n'] := by
    simpa [List.append_assoc] using hu
  obtain ⟨hut, hc⟩ := List.append_inj' hassoc rfl
  have hcEq : c = '\n' := by simpa using hc
  subst hcEq
  have htS : t <:+ S := ⟨u, hut⟩
  have hshape : (t ++ ['\n']) ++ threeDashes ++ b = t ++ ('\n' :: (threeDashes ++ b)) := by
    simp
  rw [hshape]
  cases t with
  | nil => exact isPrefixOf_cons_false (by decide) _ _
  | cons d t₁ =>
    cases t₁ with
    | nil =>
      rw [show (([d] : List Char) ++ ('\n' :: (threeDashes ++ b))) =
            d :: '\n' :: (threeDashes ++ b) by simp]
      rw [show threeDashes = '-' :: ['-', '-'] from rfl]
      rw [isPrefixOf_cons_step]
      rw [isPrefixOf_cons_false (by decide) _ _]
      simp
    | cons e t₂ =>
      cases t₂ with
      | nil =>
        rw [show (([d, e] : List Char) ++ ('\n' :: (threeDashes ++ b))) =
              d :: e :: '\n' :: (threeDashes ++ b) by simp]
        rw [show threeDashes = '-' :: '-' :: ['-'] from rfl]
        rw [isPrefixOf_cons_step, isPrefixOf_cons_step]
        rw [isPrefixOf_cons_false (by decide) _ _]
        simp
      | cons f t₃ =>
        rw [show ((d :: e :: f :: t₃) ++ ('\n' :: (threeDashes ++ b))) =
              d :: e :: f :: (t₃ ++ '\n' :: (threeDashes ++ b)) by simp]
        cases hb : threeDashes.isPrefixOf (d :: e :: f :: (t₃ ++ '\n' :: (threeDashes ++ b))) with
        | false => rfl
        | true =>
          exfalso
          have hpfx : threeDashes <+: (d :: e :: f :: (t₃ ++ '\n' :: (threeDashes ++ b))) := by
            rw [← List.isPrefixOf_iff_prefix]
            exact hb
          have h1 := List.cons_prefix_cons.mp hpfx
          have h2 := List.cons_prefix_cons.mp h1.2
          have h3 := List.cons_prefix_cons.mp h2.2
          have hpre_t : threeDashes.isPrefixOf (d :: e :: f :: t₃) = true := by
            rw [List.isPrefixOf_iff_prefix]
            rw [← h1.1, ← h2.1, ← h3.1]
            exact ⟨t₃, rfl⟩
          have hfalse := containsSubL_suffix_false hS (d :: e :: f :: t₃) htS
          rw [hpre_t] at hfalse
          exact Bool.noConfusion hfalse

/-- C1 fails on the code: a raw document containing no `---` becomes, in
its entirety (after trimming), the summary — the body comes out empty, the
opposite of the claimed assignment.  Evaluated at the concrete input
`"hello"`. -/
theorem c1_counterexample :
    splitSummaryAndBody "hello" = ("hello", "") ∧
      splitSummaryAndBody "hello" ≠ ("", "hello") := by
  constructor <;> decide

/-- C1 (amended): for every raw minutes document containing no occurrence
of `---`, `splitSummaryAndBody` returns the entire input (trimmed) as the
summary and an empty body, and never signals an error (it is a total
function). -/
theorem c1_amended (raw : String) (h : containsSubL threeDashes raw.data = false) :
    splitSummaryAndBody raw = (jsTrim raw, "") := by
  show (String.mk (jsTrimL ((splitSub threeDashes raw.data).headD [])),
        String.mk (jsTrimL (joinSep threeDashes ((splitSub threeDashes raw.data).drop 1)))) = _
  rw [splitSub_eq_single threeDashes raw.data h]
  rfl

/-- Witness for C1 at the concrete delimiter-free input `"hello"`. -/
theorem c1_witness : splitSummaryAndBody "hello" = (jsTrim "hello", "") :=
  c1_amended "hello" (by decide)

/-- C5 fails on the code as stated: both returned components are trimmed,
so a summary with surrounding whitespace does not round-trip unchanged. -/
theorem c5_counterexample :
    splitSummaryAndBody (" a" ++ "\n---\n" ++ "b") = ("a", "b") ∧
      splitSummaryAndBody (" a" ++ "\n---\n" ++ "b") ≠ (" a", "b") := by
  constructor <;> decide

/-- C5 (amended): for every summary `S` containing no `---` occurrence and
every body `B`, splitting `S ++ "\n---\n" ++ B` returns `(S, B)` up to
JavaScript trimming of both components — so exactly `(S, B)` whenever both
are already trimmed.  Only `S` needs to be delimiter-free: the body side
re-joins any interior `---` occurrences of `B`. -/
theorem c5_amended (S B : String) (hS : containsSubL threeDashes S.data = false) :
    splitSummaryAndBody (S ++ "\n---\n" ++ B) = (jsTrim S, jsTrim B) := by
  have hdata : (S ++ "\n---\n" ++ B).data =
      (S.data ++ ['\n']) ++ threeDashes ++ ('\n' :: B.data) := by
    rw [String.data_append, String.data_append]
    show S.data ++ ['\n', '-', '-', '-', '\n'] ++ B.data = _
    simp [threeDashes]
  show (String.mk (jsTrimL ((splitSub threeDashes (S ++ "\n---\n" ++ B).data).headD [])),
        String.mk (jsTrimL (joinSep threeDashes
          ((splitSub threeDashes (S ++ "\n---\n" ++ B).data).drop 1)))) = _
  rw [hdata]
  rw [splitSub_append threeDashes (by decide) (S.data ++ ['\n']) ('\n' :: B.data)
        (threeDashes_junction S.data ('\n' :: B.data) hS)]
  show (String.mk (jsTrimL (S.data ++ ['\n'])),
        String.mk (jsTrimL (joinSep threeDashes (splitSub threeDashes ('\n' :: B.data))))) = _
  rw [joinSep_splitSub threeDashes (by decide) ('\n' :: B.data)]
  rw [jsTrimL_append_ws (by decide) S.data]
  rw [jsTrimL_cons_ws (by decide) B.data]
  rfl

/-- Witness for C5 at concrete trimmed, delimiter-free components. -/
theorem c5_witness :
    splitSummaryAndBody ("Resumen breve" ++ "\n---\n" ++ "Cuerpo de la minuta") =
      (jsTrim "Resumen breve", jsTrim "Cuerpo de la minuta") :=
  c5_amended "Resumen breve" "Cuerpo de la minuta" (by decide)

/-- Application status values, from `src/types.ts` (`AppStatus`).
`ReadyToGenerate` is the spec's `ReadyForInput`; `Error` is the spec's
`Failed`. -/
inductive AppStatus where
  | Idle
  | ReadyToGenerate
  | Recording
  | Transcribing
  | Generating
  | Done
  | Error
deriving DecidableEq, Repr

/-- Per-session React state owned by the `App` component in `src/App.tsx`:
`status`, `minutes` (the minutes document, `""` while unset) and `error`. -/
structure Session where
  status : AppStatus
  minutes : String
  error : Option String
deriving DecidableEq, Repr

/-- Outcome of the synchronous prefix of `generateAndSetMinutes`
(`src/App.tsx` lines 122-129): either the validation guard fires, or the
session enters `Generating` and the external generation call is issued. -/
inductive GenStep where
  | validationFailed (s : Session)
  | callService (s : Session)
deriving DecidableEq, Repr

/-- Synchronous prefix of `generateAndSetMinutes` (`src/App.tsx`): an
empty/whitespace-only transcription sets the validation message and the
`Error` status and returns; otherwise the status becomes `Generating` and
`generateMinutesFromText` is awaited. -/
def generateAndSetMinutesStart (s : Session) (transcription : String) : GenStep :=
  if jsTrim transcription = "" then
    .validationFailed { s with error := some "La transcripción no puede estar vacía.",
                               status := .Error }
  else
    .callService { s with status := .Generating }

/-- Continuation of `generateAndSetMinutes` once `generateMinutesFromText`
resolves (`src/App.tsx` lines 131-137): a result starting with `Error`
surfaces as the `Error` status, otherwise the document is stored and the
session is `Done`. -/
def generateAndSetMinutesFinish (s : Session) (minutesResult : String) : Session :=
  if jsStartsWith minutesResult "Error" then
    { s with error := some minutesResult, status := .Error }
  else
    { s with minutes := minutesResult, status := .Done }

/-- C2 fails on the code: submitting whitespace-only text from
`ReadyToGenerate` does not stay in `ReadyToGenerate` — the guard in
`generateAndSetMinutes` moves the session to the `Error` (Failed) status. -/
theorem c2_counterexample :
    generateAndSetMinutesStart ⟨.ReadyToGenerate, "", none⟩ "   " =
        .validationFailed ⟨.Error, "", some "La transcripción no puede estar vacía."⟩ ∧
      (⟨.Error, "", some "La transcripción no puede estar vacía."⟩ : Session).status ≠
        .ReadyToGenerate := by
  constructor <;> decide

/-- C2 (amended): a submit with empty or whitespace-only text is rejected —
a validation message is surfaced and the session moves to the `Error`
(Failed) status with the minutes document untouched; it never transitions
to `Generating` (no service call is issued). -/
theorem c2_amended (s : Session) (t : String) (h : jsTrim t = "") :
    generateAndSetMinutesStart s t =
        .validationFailed { s with error := some "La transcripción no puede estar vacía.",
                                   status := .Error } ∧
      ∀ s', generateAndSetMinutesStart s t ≠ .callService s' := by
  constructor
  · simp [generateAndSetMinutesStart, h]
  · intro s'
    simp [generateAndSetMinutesStart, h]

/-- Witness for C2 at a concrete session and whitespace-only input. -/
theorem c2_witness :
    generateAndSetMinutesStart ⟨.ReadyToGenerate, "", none⟩ " \t " =
        .validationFailed ⟨.Error, "", some "La transcripción no puede estar vacía."⟩ ∧
      ∀ s', generateAndSetMinutesStart ⟨.ReadyToGenerate, "", none⟩ " \t " ≠
        .callService s' :=
  c2_amended ⟨.ReadyToGenerate, "", none⟩ " \t " (by decide)

/-- Message thrown by `transcribeAudio` (`src/services/geminiService.ts`)
when the service reports success but the text is empty or whitespace-only. -/
def emptyTranscriptMsg : String :=
  "La transcripción resultó vacía. El audio puede no haber contenido voz clara."

/-- Result post-processing of `transcribeAudio`
(`src/services/geminiService.ts`): an empty or whitespace-only response
text raises the empty-transcript error, which the catch block turns into a
string starting with `Error: `; otherwise the transcription is returned
unchanged. -/
def transcribeAudioResult (responseText : String) : String :=
  if jsTrim responseText = "" then "Error: " ++ emptyTranscriptMsg
  else responseText

/-- The `mediaRecorder.onstop` handler prefix (`src/App.tsx` lines
175-186): with zero accumulated chunks the session fails with the
empty-recording message and nothing is forwarded; otherwise the chunks are
concatenated into the audio artifact, the status becomes `Transcribing`,
and the artifact is handed to `transcribeAudio`.  Chunks are modelled by
their byte counts (the `ondataavailable` handler only ever pushes chunks of
positive size). -/
def onStop (s : Session) (chunks : List Nat) : Session ⊕ (Session × List Nat) :=
  if chunks.length = 0 then
    .inl { s with error := some "La grabación no contiene datos de audio. Por favor, inténtelo de nuevo.",
                  status := .Error }
  else
    .inr ({ s with status := .Transcribing }, chunks)

/-- Routing of the transcription result inside the `onstop` handler
(`src/App.tsx` lines 188-194): a result starting with `Error:` surfaces as
the `Error` status and processing stops; otherwise the transcript flows
into `generateAndSetMinutes`. -/
def onTranscriptionResult (s : Session) (transcriptionResult : String) :
    Session ⊕ (Session × String) :=
  if jsStartsWith transcriptionResult "Error:" then
    .inl { s with error := some transcriptionResult, status := .Error }
  else
    .inr (s, transcriptionResult)

/-- C6: a transcription call whose returned text is empty or
whitespace-only is treated as a failure even though the call succeeded: the
session transitions to the `Error` (Failed) status carrying the
empty-transcript message, and the minutes document stays unset. -/
theorem c6_empty_transcript (s : Session) (text : String) (h : jsTrim text = "") :
    onTranscriptionResult s (transcribeAudioResult text) =
        .inl { s with error := some ("Error: " ++ emptyTranscriptMsg), status := .Error } ∧
      (∀ s', onTranscriptionResult s (transcribeAudioResult text) = .inl s' →
        s'.minutes = s.minutes ∧ s'.status = .Error) := by
  have hres : transcribeAudioResult text = "Error: " ++ emptyTranscriptMsg := by
    simp [transcribeAudioResult, h]
  have hstarts : jsStartsWith ("Error: " ++ emptyTranscriptMsg) "Error:" = true := by decide
  constructor
  · rw [hres]
    simp [onTranscriptionResult, hstarts]
  · intro s' hs'
    rw [hres] at hs'
    simp [onTranscriptionResult, hstarts] at hs'
    rw [← hs']
    exact ⟨rfl, rfl⟩

/-- Witness for C6: a whitespace-only transcript at a concrete
`Transcribing` session with no minutes document. -/
theorem c6_witness :
    onTranscriptionResult ⟨.Transcribing, "", none⟩ (transcribeAudioResult " \n ") =
        .inl ⟨.Error, "", some ("Error: " ++ emptyTranscriptMsg)⟩ ∧
      (∀ s', onTranscriptionResult ⟨.Transcribing, "", none⟩ (transcribeAudioResult " \n ") =
          .inl s' → s'.minutes = "" ∧ s'.status = .Error) :=
  c6_empty_transcript ⟨.Transcribing, "", none⟩ " \n " (by decide)

/-- C7: reaching `onstop` with zero accumulated chunks signals the distinct
empty-recording failure (the session transitions to the `Error` status) and
never constructs or forwards an audio artifact; conversely any artifact it
does forward is the non-empty chunk list itself. -/
theorem c7_empty_recording (s : Session) (chunks : List Nat) :
    (chunks = [] →
        onStop s chunks =
          .inl { s with
                  error := some "La grabación no contiene datos de audio. Por favor, inténtelo de nuevo.",
                  status := .Error }) ∧
      (∀ s' art, onStop s chunks = .inr (s', art) → art = chunks ∧ art ≠ []) := by
  constructor
  · intro hnil
    subst hnil
    simp [onStop]
  · intro s' art h
    by_cases hlen : chunks.length = 0
    · simp [onStop, hlen] at h
    · simp [onStop, hlen] at h
      constructor
      · exact h.2.symm
      · rw [← h.2]
        intro hnil
        rw [hnil] at hlen
        simp at hlen

/-- Witness for C7: the zero-chunk branch at a concrete session, and the
forwarding branch at a concrete one-chunk recording. -/
theorem c7_witness :
    (onStop ⟨.Recording, "", none⟩ [] =
        .inl ⟨.Error, "",
          some "La grabación no contiene datos de audio. Por favor, inténtelo de nuevo."⟩) ∧
      (∀ s' art, onStop ⟨.Recording, "", none⟩ [42] = .inr (s', art) →
        art = [42] ∧ art ≠ []) :=
  ⟨(c7_empty_recording ⟨.Recording, "", none⟩ []).1 rfl,
   (c7_empty_recording ⟨.Recording, "", none⟩ [42]).2⟩

/-- Character pair of the `**` bold marker. -/
def starStar : List Char := ['*', '*']

/-- Inline text run of the block encoding with its bold annotation,
mirroring the Notion `rich_text` items built by the source. -/
structure RichSpan where
  content : String
  bold : Bool
deriving DecidableEq, Repr

/-- Helper `createTextWithBold` (`src/App.tsx` lines 327-342): split the
text on `**`; every odd-indexed part is bold; empty parts are skipped. -/
def createTextWithBold (text : String) : List RichSpan :=
  let parts := splitSub starStar text.data
  parts.enum.filterMap fun ip =>
    if ip.2 ≠ [] then some ⟨⟨ip.2⟩, ip.1 % 2 == 1⟩ else none

/-- Pair-and-rejoin of the `**`-split parts, implementing the global regex
replacement `replace(/\*\*(.*?)\*\*/g, '<strong>$1</strong>')` of
`markdownToHtml`: the lazy pattern repeatedly matches the leftmost `**`,
the shortest enclosed run and the closing `**`, which is exactly successive
pairing of the split pieces; a final unpaired `**` stays literal. -/
def boldJoin : List (List Char) → List Char
  | [] => []
  | [p] => p
  | [p, q] => p ++ starStar ++ q
  | p :: q :: r :: rest =>
    p ++ "<strong>".data ++ q ++ "</strong>".data ++ boldJoin (r :: rest)

/-- Inline bold replacement applied per line by `markdownToHtml`
(`src/App.tsx` line 277). -/
def boldReplace (s : String) : String := ⟨boldJoin (splitSub starStar s.data)⟩

/-- Matcher of the bullet alternation `(\*|-|\[ \])` at the current
position: the remainder after the marker when one is present. -/
def bulletMarker : List Char → Option (List Char)
  | '*' :: rest => some rest
  | '-' :: rest => some rest
  | '[' :: ' ' :: ']' :: rest => some rest
  | _ => none

/-- Test of the list regex `/^\s*(\*|-|\[ \])\s/` (`src/App.tsx` line 283):
optional leading whitespace, a bullet or checkbox marker, then one
mandatory whitespace character. -/
def bulletTestL (cs : List Char) : Bool :=
  match bulletMarker (cs.dropWhile isWs) with
  | some (c :: _) => isWs c
  | some [] => false
  | none => false

/-- Replacement `replace(/^\s*(\*|-|\[ \])\s*/, '')` (`src/App.tsx` line
288): strip leading whitespace, the marker and the following whitespace
run; a line without a marker is returned unchanged. -/
def bulletStripL (cs : List Char) : List Char :=
  match bulletMarker (cs.dropWhile isWs) with
  | some rest => rest.dropWhile isWs
  | none => cs

/-- Replacement `replace(/^\s*[\*\-]\s*/, '')` (`src/App.tsx` line 377):
the character class only holds `*` and `-`, not the checkbox. -/
def bulletCleanL (cs : List Char) : List Char :=
  match cs.dropWhile isWs with
  | '*' :: rest => rest.dropWhile isWs
  | '-' :: rest => rest.dropWhile isWs
  | _ => cs

/-- Replacement `replace(/\[ \]\s*/, '')` (`src/App.tsx` line 363): remove
the first (unanchored) `[ ]` occurrence together with the whitespace run
after it; a line without `[ ]` is returned unchanged. -/
def taskStripL : List Char → List Char
  | [] => []
  | '[' :: ' ' :: ']' :: rest => rest.dropWhile isWs
  | c :: rest => c :: taskStripL rest

/-- JavaScript `String.prototype.replace` with a plain-string pattern:
replace the first occurrence only; no occurrence leaves the string
unchanged. -/
def replaceFirstL (pat repl : List Char) : List Char → List Char
  | [] => []
  | x :: xs =>
    if pat ≠ [] ∧ pat.isPrefixOf (x :: xs) then
      repl ++ List.drop pat.length (x :: xs)
    else
      x :: replaceFirstL pat repl xs

/-- String versions of the line transforms. -/
def bulletTestS (s : String) : Bool := bulletTestL s.data

def bulletStripS (s : String) : String := ⟨bulletStripL s.data⟩

def bulletCleanS (s : String) : String := ⟨bulletCleanL s.data⟩

def taskStripS (s : String) : String := ⟨taskStripL s.data⟩

def replaceFirstS (pat repl s : String) : String :=
  ⟨replaceFirstL pat.data repl.data s.data⟩

def containsSubS (pat s : String) : Bool := containsSubL pat.data s.data

/-- Matcher of the lookahead `(?=###\s)` at the current position: three `#`
characters followed by one whitespace character. -/
def hashWsAt : List Char → Bool
  | c1 :: c2 :: c3 :: c4 :: _ => c1 == '#' && c2 == '#' && c3 == '#' && isWs c4
  | _ => false

/-- Scanner of JavaScript `split(/(?=###\s)/)` (`src/App.tsx` line 346):
the string is cut before every interior position where the lookahead
matches; the zero-width match at position 0 produces no cut. -/
def laSplitAux : List Char → List Char → List (List Char)
  | acc, [] => [acc.reverse]
  | acc, x :: xs =>
    if hashWsAt (x :: xs) then
      acc.reverse :: laSplitAux [x] xs
    else
      laSplitAux (x :: acc) xs

/-- JavaScript `markdown.split(/(?=###\s)/)`. -/
def laSplit (s : String) : List String :=
  match s.data with
  | [] => [""]
  | x :: rest => (laSplitAux [x] rest).map fun cs => (⟨cs⟩ : String)

/-- Typed content block of the block-sequence (Notion) encoding. -/
inductive NotionBlock where
  | heading3 (richText : List RichSpan)
  | todo (richText : List RichSpan) (checked : Bool)
  | paragraph (richText : List RichSpan)
deriving DecidableEq, Repr

/-- Section chunks of `parseMarkdownToNotionBlocks` (`src/App.tsx` line
346): split before each `###`-plus-whitespace position, then drop
whitespace-only chunks. -/
def notionSections (markdown : String) : List String :=
  (laSplit markdown).filter fun sec => jsTrim sec ≠ ""

/-- Non-blank lines of a trimmed section chunk (`src/App.tsx` line 349). -/
def sectionLines (sec : String) : List String :=
  (((splitSub ['\n'] (jsTrim sec).data).map fun cs => (⟨cs⟩ : String)).filter
    fun line => jsTrim line ≠ "")

/-- Task-branch line emitter (`src/App.tsx` lines 362-374). -/
def taskLineBlock (line : String) : Option NotionBlock :=
  let taskText := jsTrim (taskStripS line)
  if taskText ≠ "" then some (.todo (createTextWithBold taskText) false) else none

/-- Non-task-branch line emitter (`src/App.tsx` lines 376-388). -/
def bulletLineBlock (line : String) : Option NotionBlock :=
  let cleanedLine := jsTrim (bulletCleanS line)
  if cleanedLine ≠ "" then
    some (.paragraph (createTextWithBold ("• " ++ cleanedLine)))
  else none

/-- Blocks contributed by one section chunk (`src/App.tsx` lines 348-390):
a heading from the first non-blank line, then task blocks when the title
includes `Compromisos y tareas`, bulleted paragraphs otherwise. -/
def sectionBlocks (sec : String) : List NotionBlock :=
  match sectionLines sec with
  | [] => []
  | l0 :: contentLines =>
    let title := jsTrim (replaceFirstS "### " "" l0)
    .heading3 (createTextWithBold title) ::
      (if containsSubS "Compromisos y tareas" title then
        contentLines.filterMap taskLineBlock
      else
        contentLines.filterMap bulletLineBlock)

/-- The block-sequence encoding `parseMarkdownToNotionBlocks`
(`src/App.tsx` lines 344-393). -/
def parseMarkdownToNotionBlocks (markdown : String) : List NotionBlock :=
  ((notionSections markdown).map sectionBlocks).flatten

/-- Structured output alphabet of `markdownToHtml`: each constructor
stands for one emitted fragment. -/
inductive HtmlPiece where
  | ulOpen
  | ulClose
  | h3 (content : String)
  | li (content : String)
  | p (content : String)
deriving DecidableEq, Repr

/-- Fragment text of one piece. -/
def renderHtmlPiece : HtmlPiece → String
  | .ulOpen => "<ul>\n"
  | .ulClose => "</ul>\n"
  | .h3 c => "<h3>" ++ c ++ "</h3>\n"
  | .li c => "<li>" ++ c ++ "</li>\n"
  | .p c => "<p>" ++ c ++ "</p>\n"

/-- List-closing helper `closeList` of `markdownToHtml` (`src/App.tsx`
lines 263-268). -/
def closeListPieces (inList : Bool) : List HtmlPiece :=
  if inList then [.ulClose] else []

/-- Per-line step of the `markdownToHtml` loop (`src/App.tsx` lines
270-294), threading the emitted pieces and the `inList` flag. -/
def mdStep (st : List HtmlPiece × Bool) (line : String) : List HtmlPiece × Bool :=
  let processed := jsTrim line
  if processed = "" then (st.1 ++ closeListPieces st.2, false)
  else
    let processed2 := boldReplace processed
    if jsStartsWith processed2 "### " then
      (st.1 ++ closeListPieces st.2 ++ [.h3 (replaceFirstS "### " "" processed2)], false)
    else if bulletTestS processed2 then
      ((st.1 ++ (if st.2 then [] else [.ulOpen])) ++ [.li (bulletStripS processed2)], true)
    else
      (st.1 ++ closeListPieces st.2 ++ [.p processed2], false)

/-- Piece sequence emitted by `markdownToHtml` (`src/App.tsx` lines
258-298). -/
def markdownToHtmlPieces (markdownText : String) : List HtmlPiece :=
  let st := (((splitSub ['\n'] markdownText.data).map fun cs => (⟨cs⟩ : String)).foldl
    mdStep ([], false))
  st.1 ++ closeListPieces st.2

/-- The hypertext encoding `markdownToHtml` itself: concatenation of the
fragments. -/
def markdownToHtml (markdownText : String) : String :=
  String.join ((markdownToHtmlPieces markdownText).map renderHtmlPiece)

/-- Heading selector over the hypertext pieces. -/
def h3ContentOf : HtmlPiece → Option String
  | .h3 c => some c
  | _ => none

/-- Heading contents of the hypertext encoding, in emission order. -/
def htmlHeadings (md : String) : List String :=
  (markdownToHtmlPieces md).filterMap h3ContentOf

/-- Heading selector over the content blocks. -/
def headingRichTextOf : NotionBlock → Option (List RichSpan)
  | .heading3 rt => some rt
  | _ => none

/-- Heading rich-text runs of the block encoding, in emission order. -/
def notionHeadings (md : String) : List (List RichSpan) :=
  (parseMarkdownToNotionBlocks md).filterMap headingRichTextOf

theorem containsSubL_false_of_disjoint (sep : List Char) (hsep : sep ≠ []) :
    ∀ xs : List Char, (∀ ch ∈ xs, ch ∉ sep) → containsSubL sep xs = false := by
  intro xs
  induction xs with
  | nil =>
    intro _
    cases sep with
    | nil => exact absurd rfl hsep
    | cons s ss => rfl
  | cons x t ih =>
    intro h
    cases sep with
    | nil => exact absurd rfl hsep
    | cons s ss =>
      have hsx : (s == x) = false := by
        cases hbe : s == x with
        | false => rfl
        | true =>
          exfalso
          have heq : s = x := by simpa using hbe
          exact (h x (List.mem_cons_self x t)) (heq ▸ List.mem_cons_self s ss)
      show (List.isPrefixOf (s :: ss) (x :: t) || containsSubL (s :: ss) t) = false
      rw [isPrefixOf_cons_false hsx,
        ih (fun ch hch => h ch (List.mem_cons_of_mem x hch)), Bool.or_false]

theorem splitSub_append_of_disjoint (sep a b : List Char) (hsep : sep ≠ [])
    (h : ∀ ch ∈ a, ch ∉ sep) :
    splitSub sep (a ++ sep ++ b) = a :: splitSub sep b := by
  apply splitSub_append sep hsep
  intro a₂ hne hsuf
  cases a₂ with
  | nil => exact absurd rfl hne
  | cons c t =>
    have hc : c ∈ a := by
      obtain ⟨u, hu⟩ := hsuf
      rw [← hu]
      simp
    cases sep with
    | nil => exact absurd rfl hsep
    | cons s ss =>
      have hshape : (c :: t) ++ (s :: ss) ++ b = c :: (t ++ (s :: ss) ++ b) := by simp
      rw [hshape]
      apply isPrefixOf_cons_false
      cases hbe : s == c with
      | false => rfl
      | true =>
        exfalso
        have heq : s = c := by simpa using hbe
        exact (h c hc) (heq ▸ List.mem_cons_self s ss)

theorem splitSub_quad (A B C D : List Char)
    (hA : ∀ ch ∈ A, ch ≠ '*') (hB : ∀ ch ∈ B, ch ≠ '*')
    (hC : ∀ ch ∈ C, ch ≠ '*') (hD : ∀ ch ∈ D, ch ≠ '*') :
    splitSub starStar (A ++ starStar ++ B ++ starStar ++ C ++ starStar ++ D) =
      [A, B, C, D] := by
  have star_mem : ∀ ch : Char, ch ∈ starStar → ch = '*' := by
    intro ch hch
    simp [starStar] at hch
    exact hch
  have hdA : ∀ ch ∈ A, ch ∉ starStar := fun ch hch hmem => hA ch hch (star_mem ch hmem)
  have hdB : ∀ ch ∈ B, ch ∉ starStar := fun ch hch hmem => hB ch hch (star_mem ch hmem)
  have hdC : ∀ ch ∈ C, ch ∉ starStar := fun ch hch hmem => hC ch hch (star_mem ch hmem)
  have hshape : A ++ starStar ++ B ++ starStar ++ C ++ starStar ++ D =
      A ++ starStar ++ (B ++ starStar ++ (C ++ starStar ++ D)) := by
    simp [List.append_assoc]
  rw [hshape]
  rw [splitSub_append_of_disjoint starStar A _ (by decide) hdA]
  rw [splitSub_append_of_disjoint starStar B _ (by decide) hdB]
  rw [splitSub_append_of_disjoint starStar C _ (by decide) hdC]
  rw [splitSub_eq_single starStar D
    (containsSubL_false_of_disjoint starStar (by decide) D
      (fun ch hch hmem => hD ch hch (star_mem ch hmem)))]

/-- With an odd number of parts before the final one (that is, an odd
number of `**` markers in the line), the regex pairs all markers but the
last, and the replaced text ends with the literal `**` followed by the
final part verbatim. -/
theorem boldJoin_odd : ∀ (n : Nat) (ps : List (List Char)) (lastRun : List Char),
    ps.length = 2 * n + 1 →
    ∃ pre, boldJoin (ps ++ [lastRun]) = pre ++ starStar ++ lastRun := by
  intro n
  induction n with
  | zero =>
    intro ps lastRun hlen
    cases ps with
    | nil => exact absurd hlen (by simp)
    | cons p ps1 =>
      cases ps1 with
      | nil => exact ⟨p, rfl⟩
      | cons q ps2 =>
        exfalso
        simp only [List.length_cons] at hlen
        omega
  | succ n ih =>
    intro ps lastRun hlen
    cases ps with
    | nil => exact absurd hlen (by simp)
    | cons p ps1 =>
      cases ps1 with
      | nil =>
        exfalso
        simp only [List.length_cons, List.length_nil] at hlen
        omega
      | cons q ps2 =>
        have hlen2 : ps2.length = 2 * n + 1 := by
          simp only [List.length_cons] at hlen
          omega
        obtain ⟨pre, hpre⟩ := ih ps2 lastRun hlen2
        cases hps2 : ps2 ++ [lastRun] with
        | nil => exact absurd hps2 (by simp)
        | cons r rest =>
          refine ⟨p ++ "<strong>".data ++ q ++ "</strong>".data ++ pre, ?_⟩
          show boldJoin (p :: q :: (ps2 ++ [lastRun])) = _
          rw [hps2]
          show p ++ "<strong>".data ++ q ++ "</strong>".data ++ boldJoin (r :: rest) = _
          rw [← hps2, hpre]
          simp [List.append_assoc]

theorem filterMap_concat_some {α β : Type} (f : α → Option β) (l : List α)
    {a : α} {b : β} (h : f a = some b) :
    List.filterMap f (l ++ [a]) = List.filterMap f l ++ [b] := by
  rw [List.filterMap_append, List.filterMap_cons, h]
  rfl

theorem getLast?_filterMap_concat {α β : Type} (f : α → Option β) (l : List α)
    {a : α} {b : β} (h : f a = some b) :
    (List.filterMap f (l ++ [a])).getLast? = some b := by
  rw [filterMap_concat_some f l h, List.getLast?_concat]

/-- C9 fails on the code: in the block-sequence encoding the run after the
final unmatched `**` marker is emitted as a bold span (odd split indices
are bold), not as plain text.  Evaluated at `"a**b**c**d"`, whose last
span comes out bold. -/
theorem c9_counterexample :
    createTextWithBold "a**b**c**d" =
        [⟨"a", false⟩, ⟨"b", true⟩, ⟨"c", false⟩, ⟨"d", true⟩] ∧
      (createTextWithBold "a**b**c**d").getLast? = some ⟨"d", true⟩ := by
  constructor <;> decide

/-- C9 (amended): on any line with an odd number of `**` markers — its
`**`-split takes the form `ps ++ [lastRun]` with `ps` of odd length —
neither encoding raises an error, but they disagree about the tail: the
hypertext encoding keeps the final unmatched marker literal, emitting the
run after it verbatim at the very end with no markup around it, while the
block-sequence encoding drops the marker and, when the final run is
non-empty, emits it as a final bold span. -/
theorem c9_amended (line : String) (ps : List (List Char)) (lastRun : List Char)
    (hsplit : splitSub starStar line.data = ps ++ [lastRun])
    (hodd : ps.length % 2 = 1) :
    (∃ pre, (boldReplace line).data = pre ++ starStar ++ lastRun) ∧
      (lastRun ≠ [] →
        (createTextWithBold line).getLast? = some ⟨⟨lastRun⟩, true⟩) := by
  constructor
  · obtain ⟨pre, hpre⟩ := boldJoin_odd (ps.length / 2) ps lastRun (by omega)
    refine ⟨pre, ?_⟩
    show boldJoin (splitSub starStar line.data) = pre ++ starStar ++ lastRun
    rw [hsplit, hpre]
  · intro hlast
    have henum : (ps ++ [lastRun]).enum = ps.enum ++ [(ps.length, lastRun)] := by
      rw [List.enum_append]
      rfl
    have hf : (fun (ip : Nat × List Char) =>
        if ip.2 ≠ [] then some (⟨⟨ip.2⟩, ip.1 % 2 == 1⟩ : RichSpan) else none)
          (ps.length, lastRun) = some ⟨⟨lastRun⟩, true⟩ := by
      show (if lastRun ≠ [] then some (⟨⟨lastRun⟩, ps.length % 2 == 1⟩ : RichSpan)
          else none) = some ⟨⟨lastRun⟩, true⟩
      rw [if_pos hlast, hodd]
      rfl
    simp only [createTextWithBold]
    rw [hsplit, henum]
    exact getLast?_filterMap_concat _ _ hf

/-- Witness for C9 at the one-marker line `a**d`: the hypertext output
ends with the literal marker and `d`, the block output ends with a bold
`d` span. -/
theorem c9_witness :
    (∃ pre, (boldReplace "a**d").data = pre ++ starStar ++ "d".data) ∧
      (createTextWithBold "a**d").getLast? = some ⟨"d", true⟩ := by
  have h := c9_amended "a**d" ["a".data] "d".data (by decide) (by decide)
  exact ⟨h.1, h.2 (by decide)⟩

theorem taskLineBlock_eq_some {line : String} {blk : NotionBlock}
    (h : taskLineBlock line = some blk) :
    jsTrim (taskStripS line) ≠ "" ∧
      blk = .todo (createTextWithBold (jsTrim (taskStripS line))) false := by
  by_cases hc : jsTrim (taskStripS line) = ""
  · simp [taskLineBlock, hc] at h
  · refine ⟨hc, ?_⟩
    simp only [taskLineBlock, if_pos hc, Option.some.injEq] at h
    exact h.symm

theorem bulletLineBlock_eq_some {line : String} {blk : NotionBlock}
    (h : bulletLineBlock line = some blk) :
    jsTrim (bulletCleanS line) ≠ "" ∧
      blk = .paragraph (createTextWithBold ("• " ++ jsTrim (bulletCleanS line))) := by
  by_cases hc : jsTrim (bulletCleanS line) = ""
  · simp [bulletLineBlock, hc] at h
  · refine ⟨hc, ?_⟩
    simp only [bulletLineBlock, if_pos hc, Option.some.injEq] at h
    exact h.symm

theorem sectionBlocks_nil {sec : String} (hl : sectionLines sec = []) :
    sectionBlocks sec = [] := by
  unfold sectionBlocks
  rw [hl]

theorem sectionBlocks_cons {sec l0 : String} {cls : List String}
    (hl : sectionLines sec = l0 :: cls) :
    sectionBlocks sec =
      .heading3 (createTextWithBold (jsTrim (replaceFirstS "### " "" l0))) ::
        (if containsSubS "Compromisos y tareas" (jsTrim (replaceFirstS "### " "" l0)) then
          cls.filterMap taskLineBlock
        else
          cls.filterMap bulletLineBlock) := by
  unfold sectionBlocks
  rw [hl]

/-- C10: every Task or Paragraph block of the block-sequence encoding is
the emitter's output on an actual content line of an actual section whose
residual text — after stripping the checkbox/bullet prefix of its branch
and trimming — is non-empty, and carries exactly that residual (a Task is
always un-completed, a Paragraph carries a bullet marker prefixed to the
residual); conversely a line with an empty residual is emitted as no
block by either branch, and blank lines never appear among a section's
content lines at all. -/
theorem c10_nonempty_residuals (body : String) :
    (∀ blk ∈ parseMarkdownToNotionBlocks body,
      (∀ rt ch, blk = NotionBlock.todo rt ch →
        ch = false ∧ ∃ sec ∈ notionSections body, ∃ l0 cls,
          sectionLines sec = l0 :: cls ∧
          containsSubS "Compromisos y tareas" (jsTrim (replaceFirstS "### " "" l0))
            = true ∧
          ∃ line ∈ cls, jsTrim (taskStripS line) ≠ "" ∧
            rt = createTextWithBold (jsTrim (taskStripS line)) ∧
            taskLineBlock line = some blk) ∧
      (∀ rt, blk = NotionBlock.paragraph rt →
        ∃ sec ∈ notionSections body, ∃ l0 cls,
          sectionLines sec = l0 :: cls ∧
          containsSubS "Compromisos y tareas" (jsTrim (replaceFirstS "### " "" l0))
            = false ∧
          ∃ line ∈ cls, jsTrim (bulletCleanS line) ≠ "" ∧
            rt = createTextWithBold ("• " ++ jsTrim (bulletCleanS line)) ∧
            bulletLineBlock line = some blk)) ∧
    (∀ line : String,
      (jsTrim (taskStripS line) = "" → taskLineBlock line = none) ∧
      (jsTrim (bulletCleanS line) = "" → bulletLineBlock line = none)) ∧
    (∀ sec : String, ∀ line ∈ sectionLines sec, jsTrim line ≠ "") := by
  refine ⟨?_, ?_, ?_⟩
  · intro blk hblk
    obtain ⟨blocks, hmem, hblk2⟩ := List.mem_flatten.mp hblk
    obtain ⟨sec, hsec, hsecEq⟩ := List.mem_map.mp hmem
    rw [← hsecEq] at hblk2
    cases hl : sectionLines sec with
    | nil =>
      rw [sectionBlocks_nil hl] at hblk2
      simp at hblk2
    | cons l0 cls =>
      rw [sectionBlocks_cons hl] at hblk2
      rcases List.mem_cons.mp hblk2 with hhead | htail
      · subst hhead
        constructor
        · intro rt ch heq; exact absurd heq (by simp)
        · intro rt heq; exact absurd heq (by simp)
      · by_cases hcomp :
          containsSubS "Compromisos y tareas" (jsTrim (replaceFirstS "### " "" l0))
            = true
        · rw [if_pos hcomp] at htail
          obtain ⟨line, hline, hsome⟩ := List.mem_filterMap.mp htail
          obtain ⟨hne, hblkEq⟩ := taskLineBlock_eq_some hsome
          subst hblkEq
          constructor
          · intro rt ch heq
            injection heq with h1 h2
            exact ⟨h2.symm, sec, hsec, l0, cls, hl, hcomp, line, hline, hne,
              h1.symm, hsome⟩
          · intro rt heq; exact absurd heq (by simp)
        · rw [if_neg hcomp] at htail
          obtain ⟨line, hline, hsome⟩ := List.mem_filterMap.mp htail
          obtain ⟨hne, hblkEq⟩ := bulletLineBlock_eq_some hsome
          subst hblkEq
          have hcompf : containsSubS "Compromisos y tareas"
              (jsTrim (replaceFirstS "### " "" l0)) = false := by
            cases h : containsSubS "Compromisos y tareas"
                (jsTrim (replaceFirstS "### " "" l0)) with
            | false => rfl
            | true => exact absurd h hcomp
          constructor
          · intro rt ch heq; exact absurd heq (by simp)
          · intro rt heq
            injection heq with h1
            exact ⟨sec, hsec, l0, cls, hl, hcompf, line, hline, hne, h1.symm,
              hsome⟩
  · intro line
    constructor
    · intro h
      simp [taskLineBlock, h]
    · intro h
      simp [bulletLineBlock, h]
  · intro sec line hline
    have hline' : line ∈ (((splitSub ['\n'] (jsTrim sec).data).map
        fun cs => (⟨cs⟩ : String)).filter fun l => jsTrim l ≠ "") := hline
    simpa using (List.mem_filter.mp hline').2

/-- Witness for C10: the spec scenario task block, traced back to its
section, its content line and its non-empty residual; and two prefix-only
lines that are emitted as no block. -/
theorem c10_witness :
    (NotionBlock.todo (createTextWithBold "Buy milk") false ∈
        parseMarkdownToNotionBlocks "### 5. Compromisos y tareas\n[ ] Buy milk") ∧
      (false = false ∧
        ∃ sec ∈ notionSections "### 5. Compromisos y tareas\n[ ] Buy milk",
          ∃ l0 cls, sectionLines sec = l0 :: cls ∧
            containsSubS "Compromisos y tareas" (jsTrim (replaceFirstS "### " "" l0))
              = true ∧
            ∃ line ∈ cls, jsTrim (taskStripS line) ≠ "" ∧
              createTextWithBold "Buy milk"
                = createTextWithBold (jsTrim (taskStripS line)) ∧
              taskLineBlock line
                = some (NotionBlock.todo (createTextWithBold "Buy milk") false)) ∧
      taskLineBlock "[ ]" = none ∧ bulletLineBlock "* " = none ∧
      jsTrim "[ ] Buy milk" ≠ "" := by
  have h := c10_nonempty_residuals "### 5. Compromisos y tareas\n[ ] Buy milk"
  have hmem : NotionBlock.todo (createTextWithBold "Buy milk") false ∈
      parseMarkdownToNotionBlocks "### 5. Compromisos y tareas\n[ ] Buy milk" := by
    decide
  exact ⟨hmem, (h.1 _ hmem).1 _ _ rfl, (h.2.1 "[ ]").1 (by decide),
    (h.2.1 "* ").2 (by decide),
    h.2.2 "### 5. Compromisos y tareas\n[ ] Buy milk" "[ ] Buy milk" (by decide)⟩

theorem dropWhile_eq_self_of_jsTrimL_eq {l : List Char} (h : jsTrimL l = l) :
    l.dropWhile isWs = l := by
  have hsuf : l.dropWhile isWs <:+ l := List.dropWhile_suffix isWs
  apply hsuf.eq_of_length
  have h1 : (l.dropWhile isWs).length ≤ l.length := hsuf.length_le
  have h2 : (jsTrimL l).length ≤ (l.dropWhile isWs).length := by
    unfold jsTrimL
    rw [List.length_reverse]
    calc ((l.dropWhile isWs).reverse.dropWhile isWs).length
        ≤ (l.dropWhile isWs).reverse.length := (List.dropWhile_suffix isWs).length_le
      _ = (l.dropWhile isWs).length := List.length_reverse _
  rw [h] at h2
  omega

theorem jsTrimL_eq_self {l : List Char} (h1 : l.dropWhile isWs = l)
    (h2 : l.reverse.dropWhile isWs = l.reverse) : jsTrimL l = l := by
  unfold jsTrimL
  rw [h1, h2, List.reverse_reverse]

theorem jsTrimL_eq_self_rev {l : List Char} (h : jsTrimL l = l) :
    l.reverse.dropWhile isWs = l.reverse := by
  have h1 := dropWhile_eq_self_of_jsTrimL_eq h
  unfold jsTrimL at h
  rw [h1] at h
  have h2 := congrArg List.reverse h
  rw [List.reverse_reverse] at h2
  exact h2

theorem string_append_assoc (a b c : String) : a ++ b ++ c = a ++ (b ++ c) := by
  apply String.ext
  simp [String.data_append, List.append_assoc]

theorem string_ne_empty_data {txt : String} (h : txt ≠ "") : txt.data ≠ [] := by
  intro hd
  apply h
  apply String.ext
  rw [hd]

theorem checkbox_data (txt : String) :
    ("[ ] " ++ txt).data = '[' :: ' ' :: ']' :: ' ' :: txt.data := by
  rw [String.data_append]
  rfl

theorem taskStripS_checkbox (txt : String) (h : jsTrim txt = txt) :
    taskStripS ("[ ] " ++ txt) = txt := by
  have hdataTrim : jsTrimL txt.data = txt.data := congrArg String.data h
  have hdrop : txt.data.dropWhile isWs = txt.data :=
    dropWhile_eq_self_of_jsTrimL_eq hdataTrim
  show String.mk (taskStripL ("[ ] " ++ txt).data) = txt
  rw [checkbox_data]
  show String.mk ((' ' :: txt.data).dropWhile isWs) = txt
  rw [List.dropWhile_cons, if_pos (by decide : isWs ' ' = true), hdrop]

theorem jsTrim_checkbox_line (txt : String) (h : jsTrim txt = txt) (hne : txt ≠ "") :
    jsTrim ("[ ] " ++ txt) = "[ ] " ++ txt := by
  have hdataTrim : jsTrimL txt.data = txt.data := congrArg String.data h
  have hrev : txt.data.reverse.dropWhile isWs = txt.data.reverse :=
    jsTrimL_eq_self_rev hdataTrim
  have hne' : txt.data ≠ [] := string_ne_empty_data hne
  apply String.ext
  show jsTrimL ("[ ] " ++ txt).data = ("[ ] " ++ txt).data
  rw [checkbox_data]
  apply jsTrimL_eq_self
  · rw [List.dropWhile_cons, if_neg (by decide : ¬(isWs '[' = true))]
  · have hcond : ¬((txt.data.reverse.dropWhile isWs).isEmpty = true) := by
      rw [hrev]
      simp [List.isEmpty_iff, hne']
    have hrevshape : ('[' :: ' ' :: ']' :: ' ' :: txt.data).reverse =
        txt.data.reverse ++ [' ', ']', ' ', '['] := by simp
    rw [hrevshape, dropWhile_append_dichotomy, if_neg hcond, hrev]

theorem bulletCleanS_checkbox (txt : String) :
    bulletCleanS ("[ ] " ++ txt) = "[ ] " ++ txt := by
  apply String.ext
  show bulletCleanL ("[ ] " ++ txt).data = ("[ ] " ++ txt).data
  rw [checkbox_data]
  have hdw : ('[' :: ' ' :: ']' :: ' ' :: txt.data).dropWhile isWs =
      '[' :: ' ' :: ']' :: ' ' :: txt.data := by
    rw [List.dropWhile_cons, if_neg (by decide : ¬(isWs '[' = true))]
  unfold bulletCleanL
  rw [hdw]
  rfl

theorem taskLineBlock_checkbox (txt : String) (h : jsTrim txt = txt) (hne : txt ≠ "") :
    taskLineBlock ("[ ] " ++ txt) =
      some (NotionBlock.todo (createTextWithBold txt) false) := by
  simp only [taskLineBlock]
  rw [taskStripS_checkbox txt h, h, if_pos hne]

theorem bulletLineBlock_checkbox (txt : String) (h : jsTrim txt = txt) (hne : txt ≠ "") :
    bulletLineBlock ("[ ] " ++ txt) =
      some (NotionBlock.paragraph (createTextWithBold ("• [ ] " ++ txt))) := by
  have hne2 : ("[ ] " ++ txt) ≠ "" := by
    intro hcon
    have hd := congrArg String.data hcon
    rw [checkbox_data] at hd
    simp at hd
  have hjoin : "• " ++ ("[ ] " ++ txt) = "• [ ] " ++ txt := by
    rw [← string_append_assoc]
    have h12 : ("• " ++ "[ ] " : String) = "• [ ] " := by decide
    rw [h12]
  simp only [bulletLineBlock]
  rw [bulletCleanS_checkbox txt, jsTrim_checkbox_line txt h hne, if_pos hne2, hjoin]

/-- C4: in the block-sequence encoding a checkbox line `[ ] txt` that is a
content line of the section whose heading contains `Compromisos y tareas`
is emitted as a Task block with the checkbox prefix stripped and
`completed = false`, while the same line under a section whose heading
lacks that text is emitted as a Paragraph block that keeps the checkbox
text verbatim behind a literal bullet marker — and such a section emits no
Task block at all. -/
theorem c4_task_lines (body : String) :
    parseMarkdownToNotionBlocks body =
        ((notionSections body).map sectionBlocks).flatten ∧
      ∀ sec ∈ notionSections body, ∀ l0 cls, sectionLines sec = l0 :: cls →
        ∀ txt : String, jsTrim txt = txt → txt ≠ "" → ("[ ] " ++ txt) ∈ cls →
          (containsSubS "Compromisos y tareas" (jsTrim (replaceFirstS "### " "" l0)) = true →
            NotionBlock.todo (createTextWithBold txt) false ∈ sectionBlocks sec) ∧
          (containsSubS "Compromisos y tareas" (jsTrim (replaceFirstS "### " "" l0)) = false →
            NotionBlock.paragraph (createTextWithBold ("• [ ] " ++ txt)) ∈ sectionBlocks sec ∧
              ∀ rt ch, NotionBlock.todo rt ch ∉ sectionBlocks sec) := by
  constructor
  · rfl
  · intro sec _ l0 cls hl txt htrim hne hmem
    constructor
    · intro hcomp
      rw [sectionBlocks_cons hl, if_pos hcomp]
      apply List.mem_cons_of_mem
      exact List.mem_filterMap.mpr ⟨"[ ] " ++ txt, hmem, taskLineBlock_checkbox txt htrim hne⟩
    · intro hcomp
      have hncomp :
          ¬(containsSubS "Compromisos y tareas" (jsTrim (replaceFirstS "### " "" l0)) = true) := by
        rw [hcomp]
        exact Bool.false_ne_true
      rw [sectionBlocks_cons hl, if_neg hncomp]
      constructor
      · apply List.mem_cons_of_mem
        exact List.mem_filterMap.mpr
          ⟨"[ ] " ++ txt, hmem, bulletLineBlock_checkbox txt htrim hne⟩
      · intro rt ch hcon
        rcases List.mem_cons.mp hcon with hh | ht
        · exact NotionBlock.noConfusion hh
        · obtain ⟨line, _, hsome⟩ := List.mem_filterMap.mp ht
          obtain ⟨_, hblkEq⟩ := bulletLineBlock_eq_some hsome
          exact NotionBlock.noConfusion hblkEq

/-- Witness for C4: the spec verification body with `[ ] x` under both
section 3 and section 5. -/
theorem c4_witness :
    (NotionBlock.todo (createTextWithBold "x") false ∈
        sectionBlocks "### 5. Compromisos y tareas\n[ ] x") ∧
      (NotionBlock.paragraph (createTextWithBold ("• [ ] " ++ "x")) ∈
        sectionBlocks "### 3. Temas tratados\n[ ] x\n") ∧
      (∀ rt ch, NotionBlock.todo rt ch ∉ sectionBlocks "### 3. Temas tratados\n[ ] x\n") := by
  have h := c4_task_lines "### 3. Temas tratados\n[ ] x\n### 5. Compromisos y tareas\n[ ] x"
  have h5 := (h.2 "### 5. Compromisos y tareas\n[ ] x" (by decide)
    "### 5. Compromisos y tareas" ["[ ] x"] (by decide)
    "x" (by decide) (by decide) (by decide)).1 (by decide)
  have h3 := (h.2 "### 3. Temas tratados\n[ ] x\n" (by decide)
    "### 3. Temas tratados" ["[ ] x"] (by decide)
    "x" (by decide) (by decide) (by decide)).2 (by decide)
  exact ⟨h5, h3.1, h3.2⟩

/-- Section layout of the document grammar: a heading line `### <title>`
followed by raw content. -/
def sectionChunkData (s : String × String) : List Char :=
  '#' :: '#' :: '#' :: ' ' :: (s.1.data ++ '\n' :: s.2.data)

/-- Section chunk as a string. -/
def sectionChunk (s : String × String) : String := ⟨sectionChunkData s⟩

/-- Body assembled from a list of sections. -/
def assembleBody (secs : List (String × String)) : String :=
  ⟨(secs.map sectionChunkData).flatten⟩

/-- Well-formedness of one section for the heading-agreement law: the
title is non-empty, trimmed, and free of newlines and `#`; the content is
free of `#` and is either empty or newline-terminated. -/
def GoodSection (s : String × String) : Prop :=
  s.1 ≠ "" ∧ jsTrim s.1 = s.1 ∧ '\n' ∉ s.1.data ∧ '#' ∉ s.1.data ∧
    '#' ∉ s.2.data ∧ (s.2.data = [] ∨ s.2.data.getLast? = some '\n')

theorem beq_eq_false_of_ne {c d : Char} (h : c ≠ d) : (c == d) = false := by
  cases hb : c == d with
  | false => rfl
  | true => exact absurd (by simpa using hb) h

theorem hashWsAt_false_of_head {c : Char} (h : c ≠ '#') :
    ∀ l, hashWsAt (c :: l) = false := by
  intro l
  have hbe : (c == '#') = false := beq_eq_false_of_ne h
  match l with
  | [] => rfl
  | [a] => rfl
  | [a, b] => rfl
  | a :: b :: d :: t =>
    show (c == '#' && a == '#' && b == '#' && isWs d) = false
    simp [hbe]

theorem hashWsAt_false_of_second {c1 c2 : Char} (h : c2 ≠ '#') :
    ∀ l, hashWsAt (c1 :: c2 :: l) = false := by
  intro l
  have hbe : (c2 == '#') = false := beq_eq_false_of_ne h
  match l with
  | [] => rfl
  | [a] => rfl
  | a :: b :: t =>
    show (c1 == '#' && c2 == '#' && a == '#' && isWs b) = false
    simp [hbe]

theorem hashWsAt_false_of_third {c1 c2 c3 : Char} (h : c3 ≠ '#') :
    ∀ l, hashWsAt (c1 :: c2 :: c3 :: l) = false := by
  intro l
  have hbe : (c3 == '#') = false := beq_eq_false_of_ne h
  match l with
  | [] => rfl
  | a :: t =>
    show (c1 == '#' && c2 == '#' && c3 == '#' && isWs a) = false
    simp [hbe]

theorem hashWsAt_true_chunk (l : List Char) :
    hashWsAt ('#' :: '#' :: '#' :: ' ' :: l) = true := rfl

theorem laSplitAux_step_neg {x : Char} {xs acc : List Char}
    (h : hashWsAt (x :: xs) = false) :
    laSplitAux acc (x :: xs) = laSplitAux (x :: acc) xs := by
  simp [laSplitAux, h]

theorem laSplitAux_step_pos {x : Char} {xs acc : List Char}
    (h : hashWsAt (x :: xs) = true) :
    laSplitAux acc (x :: xs) = acc.reverse :: laSplitAux [x] xs := by
  simp [laSplitAux, h]

theorem ne_of_not_mem {c : Char} {l : List Char} (h : c ∉ l) : ∀ ch ∈ l, ch ≠ c :=
  fun _ hch he => h (he ▸ hch)

theorem laSplitAux_consume (a : List Char) (ha : ∀ ch ∈ a, ch ≠ '#') :
    ∀ (rest acc : List Char), laSplitAux acc (a ++ rest) = laSplitAux (a.reverse ++ acc) rest := by
  induction a with
  | nil => intro rest acc; rfl
  | cons c a' ih =>
    intro rest acc
    show laSplitAux acc (c :: (a' ++ rest)) = _
    rw [laSplitAux_step_neg (hashWsAt_false_of_head (ha c (List.mem_cons_self c a')) _)]
    rw [ih (fun ch hch => ha ch (List.mem_cons_of_mem c hch)) rest (c :: acc)]
    congr 1
    simp

theorem laSplitAux_chunk_tail (ttl ctt rest : List Char)
    (httl : ∀ ch ∈ ttl, ch ≠ '#') :
    laSplitAux ['#'] ('#' :: '#' :: ' ' :: ((ttl ++ '\n' :: ctt) ++ rest)) =
      laSplitAux ('\n' :: (ttl.reverse ++ [' ', '#', '#', '#'])) (ctt ++ rest) := by
  rw [laSplitAux_step_neg (hashWsAt_false_of_third (by decide) _)]
  rw [laSplitAux_step_neg (hashWsAt_false_of_second (by decide) _)]
  rw [laSplitAux_step_neg (hashWsAt_false_of_head (by decide) _)]
  have hshape : (ttl ++ '\n' :: ctt) ++ rest = ttl ++ ('\n' :: (ctt ++ rest)) := by simp
  rw [hshape, laSplitAux_consume ttl httl]
  rw [laSplitAux_step_neg (hashWsAt_false_of_head (by decide) _)]

theorem laSplitAux_sections :
    ∀ (secs : List (String × String)), (∀ s ∈ secs, GoodSection s) →
      ∀ (a acc : List Char), (∀ ch ∈ a, ch ≠ '#') →
      laSplitAux acc (a ++ (secs.map sectionChunkData).flatten) =
        (acc.reverse ++ a) :: secs.map sectionChunkData := by
  intro secs
  induction secs with
  | nil =>
    intro _ a acc ha
    simp only [List.map_nil, List.flatten_nil, List.append_nil]
    have h := laSplitAux_consume a ha [] acc
    rw [List.append_nil] at h
    rw [h]
    show [(a.reverse ++ acc).reverse] = [acc.reverse ++ a]
    simp
  | cons s rest ih =>
    intro hgood a acc ha
    obtain ⟨_, _, _, hsharp, hcsharp, _⟩ := hgood s (List.mem_cons_self s rest)
    simp only [List.map_cons, List.flatten_cons]
    have hshape : a ++ (sectionChunkData s ++ (rest.map sectionChunkData).flatten) =
        a ++ ('#' :: '#' :: '#' :: ' ' ::
          ((s.1.data ++ '\n' :: s.2.data) ++ (rest.map sectionChunkData).flatten)) := by
      simp [sectionChunkData]
    rw [hshape, laSplitAux_consume a ha]
    rw [laSplitAux_step_pos (hashWsAt_true_chunk _)]
    rw [laSplitAux_chunk_tail s.1.data s.2.data _ (ne_of_not_mem hsharp)]
    rw [ih (fun t ht => hgood t (List.mem_cons_of_mem s ht)) s.2.data _
      (ne_of_not_mem hcsharp)]
    congr 1
    · simp
    · congr 1
      simp [sectionChunkData]

/-- On a well-formed body, the lookahead split returns exactly the section
chunks. -/
theorem laSplit_assembleBody (secs : List (String × String)) (hne : secs ≠ [])
    (hgood : ∀ s ∈ secs, GoodSection s) :
    laSplit (assembleBody secs) = secs.map sectionChunk := by
  cases secs with
  | nil => exact absurd rfl hne
  | cons s rest =>
    obtain ⟨_, _, _, hsharp, hcsharp, _⟩ := hgood s (List.mem_cons_self s rest)
    show ((laSplitAux ['#'] ('#' :: '#' :: ' ' ::
        ((s.1.data ++ '\n' :: s.2.data) ++ (rest.map sectionChunkData).flatten))).map
          fun cs => (⟨cs⟩ : String)) = _
    rw [laSplitAux_chunk_tail s.1.data s.2.data _ (ne_of_not_mem hsharp)]
    rw [laSplitAux_sections rest (fun t ht => hgood t (List.mem_cons_of_mem s ht))
      s.2.data _ (ne_of_not_mem hcsharp)]
    simp only [List.map_cons, List.map_map]
    congr 1
    show String.mk _ = sectionChunk s
    congr 1
    simp [sectionChunkData]

/-- Right trim alone (the trailing half of JavaScript `trim`). -/
def rtrimL (l : List Char) : List Char := (l.reverse.dropWhile isWs).reverse

theorem jsTrimL_eq_rtrimL_of_head {c : Char} (hc : isWs c = false) (l : List Char) :
    jsTrimL (c :: l) = rtrimL (c :: l) := by
  unfold jsTrimL rtrimL
  rw [List.dropWhile_cons, if_neg (by simp [hc])]

theorem rtrimL_append_dichotomy (a b : List Char) :
    rtrimL (a ++ b) =
      if (b.reverse.dropWhile isWs).isEmpty then rtrimL a else a ++ rtrimL b := by
  unfold rtrimL
  rw [List.reverse_append, dropWhile_append_dichotomy]
  by_cases h : (b.reverse.dropWhile isWs).isEmpty
  · rw [if_pos h, if_pos h]
  · rw [if_neg h, if_neg h]
    rw [List.reverse_append, List.reverse_reverse]

theorem rtrimL_fixed_of_rev_fixed {l : List Char}
    (h : l.reverse.dropWhile isWs = l.reverse) : rtrimL l = l := by
  unfold rtrimL
  rw [h, List.reverse_reverse]

theorem revFixed_header (ttl : List Char) (htrim : jsTrimL ttl = ttl) (hne : ttl ≠ []) :
    ('#' :: '#' :: '#' :: ' ' :: ttl).reverse.dropWhile isWs =
      ('#' :: '#' :: '#' :: ' ' :: ttl).reverse := by
  have hrev : ttl.reverse.dropWhile isWs = ttl.reverse := jsTrimL_eq_self_rev htrim
  have hshape : ('#' :: '#' :: '#' :: ' ' :: ttl).reverse =
      ttl.reverse ++ [' ', '#', '#', '#'] := by simp
  have hcond : ¬((ttl.reverse.dropWhile isWs).isEmpty = true) := by
    rw [hrev]
    simp [List.isEmpty_iff, hne]
  rw [hshape, dropWhile_append_dichotomy, if_neg hcond, hrev]

theorem jsTrimL_chunk (s : String × String) (hg : GoodSection s) :
    jsTrimL (sectionChunkData s) = ('#' :: '#' :: '#' :: ' ' :: s.1.data) ∨
      ∃ R, jsTrimL (sectionChunkData s) =
        ('#' :: '#' :: '#' :: ' ' :: s.1.data) ++ '\n' :: R := by
  obtain ⟨hne, htrim, _, _, _, _⟩ := hg
  have htrimD : jsTrimL s.1.data = s.1.data := congrArg String.data htrim
  have hneD : s.1.data ≠ [] := string_ne_empty_data hne
  have hshape : sectionChunkData s =
      ('#' :: '#' :: '#' :: ' ' :: s.1.data) ++ ('\n' :: s.2.data) := by
    simp [sectionChunkData]
  have hjt : jsTrimL (sectionChunkData s) = rtrimL (sectionChunkData s) := by
    rw [hshape]
    exact jsTrimL_eq_rtrimL_of_head (by decide) _
  rw [hjt, hshape, rtrimL_append_dichotomy]
  by_cases hR : (('\n' :: s.2.data).reverse.dropWhile isWs).isEmpty
  · left
    rw [if_pos hR]
    exact rtrimL_fixed_of_rev_fixed (revFixed_header s.1.data htrimD hneD)
  · right
    rw [if_neg hR]
    have hrsh : ('\n' :: s.2.data).reverse = s.2.data.reverse ++ ['\n'] := by simp
    have hstep : ∃ R, rtrimL ('\n' :: s.2.data) = '\n' :: R := by
      unfold rtrimL
      rw [hrsh, dropWhile_append_dichotomy]
      by_cases h2 : (s.2.data.reverse.dropWhile isWs).isEmpty
      · exfalso
        apply hR
        rw [hrsh, dropWhile_append_dichotomy, if_pos h2]
        rfl
      · rw [if_neg h2]
        refine ⟨(s.2.data.reverse.dropWhile isWs).reverse, ?_⟩
        simp
    obtain ⟨R, hRR⟩ := hstep
    exact ⟨R, by rw [hRR]⟩

theorem mk_cons_ne_empty (c : Char) (l : List Char) : String.mk (c :: l) ≠ "" := by
  intro h
  have hd := congrArg String.data h
  exact List.noConfusion (hd : c :: l = [])

theorem jsTrim_headerLine (s : String × String) (hg : GoodSection s) :
    jsTrim (String.mk ('#' :: '#' :: '#' :: ' ' :: s.1.data)) =
      String.mk ('#' :: '#' :: '#' :: ' ' :: s.1.data) := by
  obtain ⟨hne, htrim, _, _, _, _⟩ := hg
  have htrimD : jsTrimL s.1.data = s.1.data := congrArg String.data htrim
  have hneD : s.1.data ≠ [] := string_ne_empty_data hne
  apply String.ext
  show jsTrimL ('#' :: '#' :: '#' :: ' ' :: s.1.data) = _
  apply jsTrimL_eq_self
  · rw [List.dropWhile_cons, if_neg (by decide : ¬(isWs '#' = true))]
  · exact revFixed_header s.1.data htrimD hneD

theorem header_chars_no_newline (s : String × String) (hnl : '\n' ∉ s.1.data) :
    ∀ ch ∈ ('#' :: '#' :: '#' :: ' ' :: s.1.data), ch ∉ (['\n'] : List Char) := by
  intro ch hch hmem
  simp only [List.mem_singleton] at hmem
  subst hmem
  simp only [List.mem_cons] at hch
  rcases hch with h | h | h | h | h
  · exact absurd h (by decide)
  · exact absurd h (by decide)
  · exact absurd h (by decide)
  · exact absurd h (by decide)
  · exact hnl h

theorem sectionLines_chunk (s : String × String) (hg : GoodSection s) :
    ∃ tail, sectionLines (sectionChunk s) =
      String.mk ('#' :: '#' :: '#' :: ' ' :: s.1.data) :: tail := by
  have hnl := hg.2.2.1
  have hkeep : (jsTrim (String.mk ('#' :: '#' :: '#' :: ' ' :: s.1.data)) ≠ "") := by
    rw [jsTrim_headerLine s hg]
    exact mk_cons_ne_empty _ _
  unfold sectionLines
  have hdataeq : (jsTrim (sectionChunk s)).data = jsTrimL (sectionChunkData s) := rfl
  rw [hdataeq]
  rcases jsTrimL_chunk s hg with hcase | ⟨R, hcase⟩
  · refine ⟨[], ?_⟩
    rw [hcase]
    rw [splitSub_eq_single ['\n'] _
      (containsSubL_false_of_disjoint ['\n'] (by decide) _ (header_chars_no_newline s hnl))]
    simp only [List.map_cons, List.map_nil, List.filter_cons]
    rw [decide_eq_true hkeep]
    simp
  · rw [hcase]
    have hsh : ('#' :: '#' :: '#' :: ' ' :: s.1.data) ++ '\n' :: R =
        ('#' :: '#' :: '#' :: ' ' :: s.1.data) ++ ['\n'] ++ R := by simp
    rw [hsh, splitSub_append_of_disjoint ['\n'] _ R (by decide) (header_chars_no_newline s hnl)]
    refine ⟨((splitSub ['\n'] R).map fun cs => (⟨cs⟩ : String)).filter
      fun line => jsTrim line ≠ "", ?_⟩
    simp only [List.map_cons, List.filter_cons]
    rw [decide_eq_true hkeep]
    simp

theorem replaceFirstL_exact (pat repl rest : List Char) (hp : pat ≠ []) :
    replaceFirstL pat repl (pat ++ rest) = repl ++ rest := by
  cases pat with
  | nil => exact absurd rfl hp
  | cons p ps =>
    show replaceFirstL (p :: ps) repl (p :: (ps ++ rest)) = repl ++ rest
    unfold replaceFirstL
    rw [if_pos ⟨by simp, by
      show (p :: ps).isPrefixOf (p :: (ps ++ rest)) = true
      rw [List.isPrefixOf_iff_prefix]
      exact ⟨rest, by simp⟩⟩]
    congr 1
    have hshape : p :: (ps ++ rest) = (p :: ps) ++ rest := by simp
    rw [hshape, List.drop_left]

theorem sectionBlocks_chunk (s : String × String) (hg : GoodSection s) :
    ∃ tail, sectionBlocks (sectionChunk s) =
        NotionBlock.heading3 (createTextWithBold s.1) :: tail ∧
      (∀ rt, NotionBlock.heading3 rt ∉ tail) := by
  obtain ⟨tailLines, hl⟩ := sectionLines_chunk s hg
  have htitle : jsTrim (replaceFirstS "### " ""
      (String.mk ('#' :: '#' :: '#' :: ' ' :: s.1.data))) = s.1 := by
    have hrepl : replaceFirstS "### " ""
        (String.mk ('#' :: '#' :: '#' :: ' ' :: s.1.data)) = s.1 := by
      apply String.ext
      show replaceFirstL "### ".data [] ('#' :: '#' :: '#' :: ' ' :: s.1.data) = s.1.data
      have h := replaceFirstL_exact "### ".data [] s.1.data (by decide)
      simpa using h
    rw [hrepl]
    exact hg.2.1
  refine ⟨(if containsSubS "Compromisos y tareas" s.1 then
            tailLines.filterMap taskLineBlock
          else tailLines.filterMap bulletLineBlock), ?_, ?_⟩
  · rw [sectionBlocks_cons hl, htitle]
  · intro rt hmem
    by_cases hc : containsSubS "Compromisos y tareas" s.1 = true
    · rw [if_pos hc] at hmem
      obtain ⟨line, _, hsome⟩ := List.mem_filterMap.mp hmem
      obtain ⟨_, heq⟩ := taskLineBlock_eq_some hsome
      exact NotionBlock.noConfusion heq
    · rw [if_neg hc] at hmem
      obtain ⟨line, _, hsome⟩ := List.mem_filterMap.mp hmem
      obtain ⟨_, heq⟩ := bulletLineBlock_eq_some hsome
      exact NotionBlock.noConfusion heq

theorem jsTrim_chunk_ne (s : String × String) (hg : GoodSection s) :
    jsTrim (sectionChunk s) ≠ "" := by
  intro h
  have hd := congrArg String.data h
  have hd2 : jsTrimL (sectionChunkData s) = [] := hd
  rcases jsTrimL_chunk s hg with hc | ⟨R, hc⟩
  · rw [hc] at hd2
    exact List.noConfusion hd2
  · rw [hc] at hd2
    simp at hd2

theorem blocks_headings_map (secs : List (String × String))
    (hgood : ∀ s ∈ secs, GoodSection s) :
    ((((secs.map sectionChunk).map sectionBlocks).flatten).filterMap headingRichTextOf) =
      secs.map fun s => createTextWithBold s.1 := by
  induction secs with
  | nil => rfl
  | cons s rest ih =>
    obtain ⟨tail, htail, hnoh⟩ := sectionBlocks_chunk s (hgood s (List.mem_cons_self s rest))
    simp only [List.map_cons, List.flatten_cons, List.filterMap_append]
    rw [htail]
    have htail0 : tail.filterMap headingRichTextOf = [] := by
      rw [List.filterMap_eq_nil_iff]
      intro b hb
      cases b with
      | heading3 rt => exact absurd hb (hnoh rt)
      | todo rt ch => rfl
      | paragraph rt => rfl
    rw [List.filterMap_cons, htail0, ih (fun t ht => hgood t (List.mem_cons_of_mem s ht))]
    rfl

/-- On a well-formed body the block encoding emits exactly one heading per
section, carrying the section title, in order. -/
theorem notionHeadings_assemble (secs : List (String × String)) (hne : secs ≠ [])
    (hgood : ∀ s ∈ secs, GoodSection s) :
    notionHeadings (assembleBody secs) = secs.map fun s => createTextWithBold s.1 := by
  unfold notionHeadings parseMarkdownToNotionBlocks notionSections
  rw [laSplit_assembleBody secs hne hgood]
  have hfilter : (((secs.map sectionChunk).filter fun sec => jsTrim sec ≠ "")) =
      secs.map sectionChunk := by
    rw [List.filter_eq_self]
    intro x hx
    obtain ⟨s, hs, hxeq⟩ := List.mem_map.mp hx
    rw [← hxeq]
    exact decide_eq_true (jsTrim_chunk_ne s (hgood s hs))
  rw [hfilter]
  exact blocks_headings_map secs hgood

theorem splitSub_append_left_of_disjoint (sep : List Char) (hsep : sep ≠ []) :
    ∀ (a x : List Char), (∀ ch ∈ a, ch ∉ sep) →
      splitSub sep (a ++ x) =
        (a ++ (splitSub sep x).headD []) :: (splitSub sep x).tail := by
  intro a
  induction a with
  | nil =>
    intro x _
    cases hx : splitSub sep x with
    | nil => exact absurd hx (splitSub_ne_nil sep x)
    | cons h t => simp [hx]
  | cons c a' ih =>
    intro x h
    cases sep with
    | nil => exact absurd rfl hsep
    | cons s ss =>
      have hne : ¬((s :: ss) ≠ [] ∧ (s :: ss).isPrefixOf (c :: (a' ++ x))) := by
        intro hcon
        have h2 := hcon.2
        rw [isPrefixOf_cons_step, beq_eq_false_of_ne ?hsc, Bool.false_and] at h2
        · exact Bool.noConfusion h2
        case hsc =>
          intro he
          exact h c (List.mem_cons_self c a') (he ▸ List.mem_cons_self s ss)
      show splitSub (s :: ss) (c :: (a' ++ x)) = _
      rw [splitSub_cons_neg (s :: ss) c (a' ++ x) hne]
      rw [ih x (fun ch hch => h ch (List.mem_cons_of_mem c hch))]
      rfl

theorem boldJoin_cons_append (hdr P0 : List Char) (Pt : List (List Char)) :
    boldJoin ((hdr ++ P0) :: Pt) = hdr ++ boldJoin (P0 :: Pt) := by
  match Pt with
  | [] => rfl
  | [q] => simp [boldJoin, starStar, List.append_assoc]
  | q :: r :: rest => simp [boldJoin, List.append_assoc]

theorem boldReplaceL_header (ttl : List Char) :
    boldJoin (splitSub starStar (('#' :: '#' :: '#' :: ' ' :: []) ++ ttl)) =
      '#' :: '#' :: '#' :: ' ' :: boldJoin (splitSub starStar ttl) := by
  have hdisj : ∀ ch ∈ ('#' :: '#' :: '#' :: ' ' :: []), ch ∉ starStar := by
    intro ch hch hmem
    simp [starStar] at hmem
    subst hmem
    simp at hch
  rw [splitSub_append_left_of_disjoint starStar (by decide) _ ttl hdisj]
  cases hx : splitSub starStar ttl with
  | nil => exact absurd hx (splitSub_ne_nil starStar ttl)
  | cons h t =>
    simp only [List.headD, List.tail]
    rw [boldJoin_cons_append ['#', '#', '#', ' '] h t]
    rfl

theorem jsTrimL_mem_subset {l : List Char} : ∀ ch ∈ jsTrimL l, ch ∈ l := by
  intro ch hch
  unfold jsTrimL at hch
  rw [List.mem_reverse] at hch
  have h1 := List.dropWhile_suffix isWs (l := (l.dropWhile isWs).reverse)
  have h2 := h1.subset hch
  rw [List.mem_reverse] at h2
  exact (List.dropWhile_suffix isWs).subset h2

theorem splitSub_mem_subset (sep : List Char) :
    ∀ (n : Nat) (xs : List Char), xs.length ≤ n →
      ∀ piece ∈ splitSub sep xs, ∀ ch ∈ piece, ch ∈ xs := by
  intro n
  induction n with
  | zero =>
    intro xs hl piece hp ch hch
    have hxs : xs = [] := List.eq_nil_of_length_eq_zero (Nat.le_zero.mp hl)
    subst hxs
    rw [splitSub_nil] at hp
    simp at hp
    subst hp
    simp at hch
  | succ n ih =>
    intro xs hl piece hp ch hch
    cases xs with
    | nil =>
      rw [splitSub_nil] at hp
      simp at hp
      subst hp
      simp at hch
    | cons x rest =>
      have hl' : rest.length ≤ n := by
        have : rest.length + 1 ≤ n + 1 := by simpa using hl
        omega
      by_cases hc : sep ≠ [] ∧ sep.isPrefixOf (x :: rest)
      · rw [splitSub_cons_pos sep x rest hc] at hp
        rcases List.mem_cons.mp hp with h1 | h1
        · subst h1; simp at hch
        · have hseplen : 1 ≤ sep.length := by
            cases hs : sep with
            | nil => exact absurd hs hc.1
            | cons a as => simp [hs]
          have hln : rest.length + 1 ≤ n + 1 := by simpa using hl
          have hdl : (List.drop sep.length (x :: rest)).length ≤ n := by
            simp only [List.length_drop, List.length_cons]
            omega
          have := ih _ hdl piece h1 ch hch
          exact List.drop_subset _ _ this
      · rw [splitSub_cons_neg sep x rest hc] at hp
        cases hz : splitSub sep rest with
        | nil => exact absurd hz (splitSub_ne_nil sep rest)
        | cons y ys =>
          rw [hz] at hp
          rcases List.mem_cons.mp hp with h1 | h1
          · subst h1
            rcases List.mem_cons.mp hch with h2 | h2
            · subst h2; exact List.mem_cons_self ch rest
            · have := ih rest hl' y (by rw [hz]; exact List.mem_cons_self y ys) ch h2
              exact List.mem_cons_of_mem x this
          · have := ih rest hl' piece (by rw [hz]; exact List.mem_cons_of_mem y h1) ch hch
            exact List.mem_cons_of_mem x this

theorem boldJoin_chars :
    ∀ (n : Nat) (parts : List (List Char)), parts.length ≤ n →
      ∀ ch ∈ boldJoin parts,
        (∃ p ∈ parts, ch ∈ p) ∨ ch ∈ ['<', 's', 't', 'r', 'o', 'n', 'g', '>', '/', '*'] := by
  intro n
  induction n with
  | zero =>
    intro parts hl ch hch
    have : parts = [] := List.eq_nil_of_length_eq_zero (Nat.le_zero.mp hl)
    subst this
    simp [boldJoin] at hch
  | succ n ih =>
    intro parts hl ch hch
    match parts with
    | [] => simp [boldJoin] at hch
    | [p] =>
      left
      exact ⟨p, List.mem_cons_self p [], by simpa [boldJoin] using hch⟩
    | [p, q] =>
      rw [show boldJoin [p, q] = p ++ starStar ++ q from rfl] at hch
      rcases List.mem_append.mp hch with h1 | h1
      · rcases List.mem_append.mp h1 with h2 | h2
        · exact Or.inl ⟨p, by simp, h2⟩
        · right
          have hsub : ∀ x ∈ starStar, x ∈ ['<', 's', 't', 'r', 'o', 'n', 'g', '>', '/', '*'] := by
            decide
          exact hsub ch h2
      · exact Or.inl ⟨q, by simp, h1⟩
    | p :: q :: r :: rest =>
      rw [show boldJoin (p :: q :: r :: rest) =
          p ++ "<strong>".data ++ q ++ "</strong>".data ++ boldJoin (r :: rest) from rfl] at hch
      have hl' : (r :: rest).length ≤ n := by
        simp at hl ⊢
        omega
      rcases List.mem_append.mp hch with h1 | h1
      · rcases List.mem_append.mp h1 with h2 | h2
        · rcases List.mem_append.mp h2 with h3 | h3
          · rcases List.mem_append.mp h3 with h4 | h4
            · exact Or.inl ⟨p, by simp, h4⟩
            · right
              have hsub : ∀ x ∈ "<strong>".data,
                  x ∈ ['<', 's', 't', 'r', 'o', 'n', 'g', '>', '/', '*'] := by decide
              exact hsub ch h4
          · exact Or.inl ⟨q, by simp, h3⟩
        · right
          have hsub : ∀ x ∈ "</strong>".data,
              x ∈ ['<', 's', 't', 'r', 'o', 'n', 'g', '>', '/', '*'] := by decide
          exact hsub ch h2
      · rcases ih (r :: rest) hl' ch h1 with ⟨pp, hpp, hchp⟩ | h2
        · exact Or.inl ⟨pp, by
            rcases List.mem_cons.mp hpp with h|h
            · subst h; simp
            · simp [h], hchp⟩
        · exact Or.inr h2

theorem eq_concat_of_getLast? {l : List Char} {a : Char} (h : l.getLast? = some a) :
    ∃ l', l = l' ++ [a] := by
  induction l with
  | nil => simp at h
  | cons x xs ih =>
    cases hxs : xs with
    | nil =>
      subst hxs
      have : x = a := by simpa using h
      exact ⟨[], by simp [this]⟩
    | cons y ys =>
      subst hxs
      rw [List.getLast?_cons_cons] at h
      obtain ⟨l', hl⟩ := ih h
      exact ⟨x :: l', by rw [hl]; simp⟩

theorem mem_split_first (c : List Char) (h : '\n' ∈ c) :
    ∃ l1 c2, c = l1 ++ '\n' :: c2 ∧ '\n' ∉ l1 := by
  induction c with
  | nil => simp at h
  | cons x xs ih =>
    by_cases hx : x = '\n'
    · exact ⟨[], xs, by rw [hx]; rfl, by simp⟩
    · have hmem : '\n' ∈ xs := by
        rcases List.mem_cons.mp h with h1 | h1
        · exact absurd h1.symm hx
        · exact h1
      obtain ⟨l1, c2, heq, hnot⟩ := ih hmem
      refine ⟨x :: l1, c2, by rw [heq]; rfl, ?_⟩
      intro hm
      rcases List.mem_cons.mp hm with h2 | h2
      · exact hx h2.symm
      · exact hnot h2

theorem dropLast_cons_ne {α : Type} (a : α) {l : List α} (h : l ≠ []) :
    (a :: l).dropLast = a :: l.dropLast := by
  cases l with
  | nil => exact absurd rfl h
  | cons b t => rfl

theorem newline_not_mem_singleton {l1 : List Char} (h : '\n' ∉ l1) :
    ∀ ch ∈ l1, ch ∉ (['\n'] : List Char) := by
  intro ch hch hmem
  simp only [List.mem_singleton] at hmem
  subst hmem
  exact h hch

theorem splitSub_nlTerm (X : List Char) :
    ∀ (n : Nat) (c : List Char), c.length ≤ n →
      (c = [] ∨ ∃ c', c = c' ++ ['\n']) →
      splitSub ['\n'] (c ++ X) =
        (splitSub ['\n'] c).dropLast ++ splitSub ['\n'] X := by
  intro n
  induction n with
  | zero =>
    intro c hl hc
    have : c = [] := List.eq_nil_of_length_eq_zero (Nat.le_zero.mp hl)
    subst this
    rw [splitSub_nil]
    rfl
  | succ n ih =>
    intro c hl hc
    rcases hc with rfl | ⟨c', rfl⟩
    · rw [splitSub_nil]
      rfl
    · have hmem : '\n' ∈ c' ++ ['\n'] := by simp
      obtain ⟨l1, c2, heq, hnot⟩ := mem_split_first _ hmem
      have hc2 : c2 = [] ∨ ∃ c2', c2 = c2' ++ ['\n'] := by
        by_cases hc2n : c2 = []
        · exact Or.inl hc2n
        · right
          have hlast : (c' ++ ['\n']).getLast? = some '\n' := by simp
          rw [heq] at hlast
          have h2 : (l1 ++ '\n' :: c2).getLast? = c2.getLast? := by
            rw [show l1 ++ '\n' :: c2 = (l1 ++ ['\n']) ++ c2 by simp]
            exact List.getLast?_append_of_ne_nil _ hc2n
          rw [h2] at hlast
          exact eq_concat_of_getLast? hlast
      have hlen : c2.length ≤ n := by
        have := congrArg List.length heq
        simp at this hl
        omega
      have hsh1 : (l1 ++ '\n' :: c2) ++ X = l1 ++ ['\n'] ++ (c2 ++ X) := by simp
      have hsh2 : l1 ++ '\n' :: c2 = l1 ++ ['\n'] ++ c2 := by simp
      rw [heq]
      rw [hsh1]
      rw [splitSub_append_of_disjoint ['\n'] l1 (c2 ++ X) (by decide)
          (newline_not_mem_singleton hnot)]
      rw [ih c2 hlen hc2]
      rw [hsh2]
      rw [splitSub_append_of_disjoint ['\n'] l1 c2 (by decide)
          (newline_not_mem_singleton hnot)]
      have hdlc : (l1 :: splitSub ['\n'] c2).dropLast = l1 :: (splitSub ['\n'] c2).dropLast :=
        dropLast_cons_ne l1 (splitSub_ne_nil ['\n'] c2)
      rw [hdlc]
      rfl

/-- Source lines contributed by one section: the heading line followed by
the newline-separated content lines. -/
def secLines (s : String × String) : List (List Char) :=
  ('#' :: '#' :: '#' :: ' ' :: s.1.data) :: (splitSub ['\n'] s.2.data).dropLast

theorem body_lines (secs : List (String × String))
    (hgood : ∀ s ∈ secs, GoodSection s) :
    splitSub ['\n'] (assembleBody secs).data =
      (secs.map secLines).flatten ++ [[]] := by
  induction secs with
  | nil => rfl
  | cons s rest ih =>
    obtain ⟨_, _, hnl, hsharp, _, hcend⟩ := hgood s (List.mem_cons_self s rest)
    have hbody : (assembleBody (s :: rest)).data =
        ('#' :: '#' :: '#' :: ' ' :: s.1.data) ++ ['\n'] ++
          (s.2.data ++ (assembleBody rest).data) := by
      show (sectionChunkData s ++ (rest.map sectionChunkData).flatten) = _
      simp [sectionChunkData, assembleBody]
    rw [hbody,
      splitSub_append_of_disjoint ['\n'] _ _ (by decide) (header_chars_no_newline s hnl),
      splitSub_nlTerm (assembleBody rest).data s.2.data.length s.2.data (Nat.le_refl _)
        (by
          rcases hcend with h | h
          · exact Or.inl h
          · exact Or.inr (eq_concat_of_getLast? h)),
      ih (fun t ht => hgood t (List.mem_cons_of_mem s ht))]
    simp [secLines]

theorem jsStartsWith_hash_false {t : String} (h : '#' ∉ t.data) :
    jsStartsWith t "### " = false := by
  show ("### ".data).isPrefixOf t.data = false
  cases ht : t.data with
  | nil => rfl
  | cons c cs =>
    show List.isPrefixOf ('#' :: '#' :: '#' :: ' ' :: []) (c :: cs) = false
    apply isPrefixOf_cons_false
    apply beq_eq_false_of_ne
    intro he
    apply h
    rw [ht, ← he]
    exact List.mem_cons_self _ _

theorem boldReplace_trim_no_hash {line : String} (h : '#' ∉ line.data) :
    '#' ∉ (boldReplace (jsTrim line)).data := by
  intro hmem
  have hbj := boldJoin_chars (splitSub starStar (jsTrimL line.data)).length
    (splitSub starStar (jsTrimL line.data)) (Nat.le_refl _) '#' hmem
  rcases hbj with ⟨p, hp, hchp⟩ | hspec
  · have h1 := splitSub_mem_subset starStar (jsTrimL line.data).length (jsTrimL line.data)
      (Nat.le_refl _) p hp '#' hchp
    exact h (jsTrimL_mem_subset '#' h1)
  · exact absurd hspec (by decide)

theorem mdStep_header (s : String × String) (hg : GoodSection s)
    (st : List HtmlPiece × Bool) :
    mdStep st (String.mk ('#' :: '#' :: '#' :: ' ' :: s.1.data)) =
      (st.1 ++ closeListPieces st.2 ++ [HtmlPiece.h3 (boldReplace s.1)], false) := by
  have htrim := jsTrim_headerLine s hg
  have hne : String.mk ('#' :: '#' :: '#' :: ' ' :: s.1.data) ≠ "" := mk_cons_ne_empty _ _
  have hbold : boldReplace (String.mk ('#' :: '#' :: '#' :: ' ' :: s.1.data)) =
      String.mk ('#' :: '#' :: '#' :: ' ' :: boldJoin (splitSub starStar s.1.data)) := by
    apply String.ext
    show boldJoin (splitSub starStar ('#' :: '#' :: '#' :: ' ' :: s.1.data)) = _
    have hh := boldReplaceL_header s.1.data
    simpa using hh
  have hsw : jsStartsWith (String.mk ('#' :: '#' :: '#' :: ' ' ::
      boldJoin (splitSub starStar s.1.data))) "### " = true := by
    show ("### ".data).isPrefixOf _ = true
    rw [List.isPrefixOf_iff_prefix]
    exact ⟨boldJoin (splitSub starStar s.1.data), rfl⟩
  have hrepl : replaceFirstS "### " "" (String.mk ('#' :: '#' :: '#' :: ' ' ::
      boldJoin (splitSub starStar s.1.data))) = boldReplace s.1 := by
    apply String.ext
    show replaceFirstL "### ".data []
        ('#' :: '#' :: '#' :: ' ' :: boldJoin (splitSub starStar s.1.data)) = _
    have hh := replaceFirstL_exact "### ".data []
      (boldJoin (splitSub starStar s.1.data)) (by decide)
    simpa using hh
  simp only [mdStep]
  rw [htrim, if_neg hne, hbold, if_pos hsw, hrepl]

theorem mdStep_no_h3 (line : String) (hsharp : '#' ∉ line.data)
    (st : List HtmlPiece × Bool) :
    ∃ Δ b', mdStep st line = (st.1 ++ Δ, b') ∧ ∀ c, HtmlPiece.h3 c ∉ Δ := by
  simp only [mdStep]
  by_cases hblank : jsTrim line = ""
  · refine ⟨closeListPieces st.2, false, by rw [if_pos hblank], ?_⟩
    intro c hc
    unfold closeListPieces at hc
    by_cases h2 : st.2 = true
    · rw [if_pos h2] at hc; simp at hc
    · rw [if_neg h2] at hc; simp at hc
  · rw [if_neg hblank]
    have hsw : jsStartsWith (boldReplace (jsTrim line)) "### " = false :=
      jsStartsWith_hash_false (boldReplace_trim_no_hash hsharp)
    rw [if_neg (by rw [hsw]; exact Bool.false_ne_true)]
    by_cases hbt : bulletTestS (boldReplace (jsTrim line)) = true
    · rw [if_pos hbt]
      refine ⟨(if st.2 then [] else [HtmlPiece.ulOpen]) ++
          [HtmlPiece.li (bulletStripS (boldReplace (jsTrim line)))], true, ?_, ?_⟩
      · simp [List.append_assoc]
      · intro c hc
        rcases List.mem_append.mp hc with h1 | h1
        · by_cases h2 : st.2 = true
          · rw [if_pos h2] at h1; simp at h1
          · rw [if_neg h2] at h1; simp at h1
        · simp at h1
    · rw [if_neg hbt]
      refine ⟨closeListPieces st.2 ++ [HtmlPiece.p (boldReplace (jsTrim line))], false, ?_, ?_⟩
      · simp [List.append_assoc]
      · intro c hc
        rcases List.mem_append.mp hc with h1 | h1
        · unfold closeListPieces at h1
          by_cases h2 : st.2 = true
          · rw [if_pos h2] at h1; simp at h1
          · rw [if_neg h2] at h1; simp at h1
        · simp at h1

theorem foldl_mdStep_no_h3 :
    ∀ (lines : List String), (∀ l ∈ lines, '#' ∉ l.data) →
      ∀ (st : List HtmlPiece × Bool),
        ∃ Δ b', lines.foldl mdStep st = (st.1 ++ Δ, b') ∧ ∀ c, HtmlPiece.h3 c ∉ Δ := by
  intro lines
  induction lines with
  | nil =>
    intro _ st
    exact ⟨[], st.2, by simp, fun c hc => by simp at hc⟩
  | cons l ls ih =>
    intro hs st
    obtain ⟨Δ1, b1, hstep, hno1⟩ := mdStep_no_h3 l (hs l (List.mem_cons_self l ls)) st
    obtain ⟨Δ2, b2, hfold, hno2⟩ :=
      ih (fun x hx => hs x (List.mem_cons_of_mem l hx)) (st.1 ++ Δ1, b1)
    refine ⟨Δ1 ++ Δ2, b2, ?_, ?_⟩
    · show List.foldl mdStep (mdStep st l) ls = _
      rw [hstep, hfold]
      simp [List.append_assoc]
    · intro c hc
      rcases List.mem_append.mp hc with h1 | h1
      · exact hno1 c h1
      · exact hno2 c h1

theorem closeList_no_h3 (b : Bool) : ∀ c, HtmlPiece.h3 c ∉ closeListPieces b := by
  intro c hc
  unfold closeListPieces at hc
  cases b with
  | true => simp at hc
  | false => simp at hc

theorem filterMap_h3_nil {Δ : List HtmlPiece} (hno : ∀ c, HtmlPiece.h3 c ∉ Δ) :
    Δ.filterMap h3ContentOf = [] := by
  rw [List.filterMap_eq_nil_iff]
  intro p hp
  cases p with
  | h3 c => exact absurd hp (hno c)
  | ulOpen => rfl
  | ulClose => rfl
  | li c => rfl
  | p c => rfl

theorem foldl_mdStep_sections :
    ∀ (secs : List (String × String)), (∀ s ∈ secs, GoodSection s) →
      ∀ (st : List HtmlPiece × Bool),
        ∃ Δ b',
          (((secs.map secLines).flatten).map (fun cs => (⟨cs⟩ : String))).foldl mdStep st =
            (st.1 ++ Δ, b') ∧
          Δ.filterMap h3ContentOf = secs.map fun s => boldReplace s.1 := by
  intro secs
  induction secs with
  | nil =>
    intro _ st
    exact ⟨[], st.2, by simp, rfl⟩
  | cons s rest ih =>
    intro hgood st
    rw [List.map_cons, List.flatten_cons, List.map_append, List.foldl_append]
    rw [show secLines s = ('#' :: '#' :: '#' :: ' ' :: s.1.data) ::
        (splitSub ['\n'] s.2.data).dropLast from rfl]
    rw [List.map_cons, List.foldl_cons]
    rw [mdStep_header s (hgood s (List.mem_cons_self s rest)) st]
    have hcl : ∀ l ∈ ((splitSub ['\n'] s.2.data).dropLast).map (fun cs => (⟨cs⟩ : String)),
        '#' ∉ l.data := by
      intro l hl hmem
      obtain ⟨piece, hpiece, hleq⟩ := List.mem_map.mp hl
      rw [← hleq] at hmem
      have hp2 : piece ∈ splitSub ['\n'] s.2.data := List.dropLast_subset _ hpiece
      have hchar := splitSub_mem_subset ['\n'] s.2.data.length s.2.data (Nat.le_refl _)
        piece hp2 '#' hmem
      exact (hgood s (List.mem_cons_self s rest)).2.2.2.2.1 hchar
    obtain ⟨Δc, bc, hfoldc, hnoc⟩ := foldl_mdStep_no_h3 _ hcl
      (st.1 ++ closeListPieces st.2 ++ [HtmlPiece.h3 (boldReplace s.1)], false)
    rw [hfoldc]
    obtain ⟨Δr, br, hfoldr, hfmr⟩ := ih (fun t ht => hgood t (List.mem_cons_of_mem s ht))
      ((st.1 ++ closeListPieces st.2 ++ [HtmlPiece.h3 (boldReplace s.1)]) ++ Δc, bc)
    refine ⟨closeListPieces st.2 ++ ([HtmlPiece.h3 (boldReplace s.1)] ++ (Δc ++ Δr)), br, ?_, ?_⟩
    · rw [hfoldr]
      simp [List.append_assoc]
    · rw [List.filterMap_append, List.filterMap_append, List.filterMap_append]
      rw [hfmr, filterMap_h3_nil (closeList_no_h3 st.2), filterMap_h3_nil hnoc]
      rfl

/-- On a well-formed body the hypertext encoding emits exactly one heading
per section, carrying the bold-processed section title, in order. -/
theorem htmlHeadings_assemble (secs : List (String × String))
    (hgood : ∀ s ∈ secs, GoodSection s) :
    htmlHeadings (assembleBody secs) = secs.map fun s => boldReplace s.1 := by
  unfold htmlHeadings markdownToHtmlPieces
  rw [body_lines secs hgood]
  rw [List.map_append, List.foldl_append]
  obtain ⟨Δ, b', hfold, hfm⟩ := foldl_mdStep_sections secs hgood ([], false)
  rw [hfold]
  rw [show (List.map (fun cs => (⟨cs⟩ : String)) ([[]] : List (List Char))) =
      [String.mk []] from rfl]
  rw [List.foldl_cons, List.foldl_nil]
  have hstep : mdStep ((([], false) : List HtmlPiece × Bool).1 ++ Δ, b') (String.mk []) =
      ((([], false) : List HtmlPiece × Bool).1 ++ Δ ++ closeListPieces b', false) := by
    have hb : jsTrim (String.mk []) = "" := rfl
    simp only [mdStep]
    rw [if_pos hb]
  rw [hstep]
  cases b' with
  | true => simp [List.filterMap_append, hfm, closeListPieces, h3ContentOf]
  | false => simp [List.filterMap_append, hfm, closeListPieces, h3ContentOf]

/-- C3 fails on the code for arbitrary bodies: the block-sequence encoding
manufactures a heading block out of a body's leading non-heading text,
while the hypertext encoding emits a paragraph.  Evaluated at the body
`"hello"`: zero headings against one. -/
theorem c3_counterexample :
    htmlHeadings "hello" = [] ∧
      notionHeadings "hello" = [createTextWithBold "hello"] ∧
      (htmlHeadings "hello").length ≠ (notionHeadings "hello").length := by
  refine ⟨by decide, by decide, by decide⟩

/-- C3 (amended): for every grammar-conforming body — a non-empty
concatenation of sections, each a line-initial `### ` heading with a
trimmed non-empty `#`-free title followed by `#`-free newline-terminated
content — the two encodings emit exactly one heading per section, in the
same source order, and hence the same number of headings. -/
theorem c3_amended (secs : List (String × String)) (hne : secs ≠ [])
    (hgood : ∀ s ∈ secs, GoodSection s) :
    htmlHeadings (assembleBody secs) = secs.map (fun s => boldReplace s.1) ∧
      notionHeadings (assembleBody secs) = secs.map (fun s => createTextWithBold s.1) ∧
      (htmlHeadings (assembleBody secs)).length =
        (notionHeadings (assembleBody secs)).length := by
  refine ⟨htmlHeadings_assemble secs hgood, notionHeadings_assemble secs hne hgood, ?_⟩
  rw [htmlHeadings_assemble secs hgood, notionHeadings_assemble secs hne hgood]
  simp

/-- Witness for C3 at a concrete two-section body. -/
theorem c3_witness :
    htmlHeadings (assembleBody [("1. Nombre", "* Acme\n"), ("2. Objetivo", "")]) =
        [("1. Nombre", "* Acme\n"), ("2. Objetivo", "")].map (fun s => boldReplace s.1) ∧
      notionHeadings (assembleBody [("1. Nombre", "* Acme\n"), ("2. Objetivo", "")]) =
        [("1. Nombre", "* Acme\n"), ("2. Objetivo", "")].map
          (fun s => createTextWithBold s.1) ∧
      (htmlHeadings (assembleBody [("1. Nombre", "* Acme\n"), ("2. Objetivo", "")])).length =
        (notionHeadings (assembleBody [("1. Nombre", "* Acme\n"), ("2. Objetivo", "")])).length :=
  c3_amended [("1. Nombre", "* Acme\n"), ("2. Objetivo", "")] (by decide)
    (by
      intro s hs
      rcases List.mem_cons.mp hs with h1 | h2
      · subst h1
        exact ⟨by decide, by decide, by decide, by decide, by decide, Or.inr (by decide)⟩
      · rcases List.mem_cons.mp h2 with h3 | h4
        · subst h3
          exact ⟨by decide, by decide, by decide, by decide, by decide, Or.inl (by decide)⟩
        · simp at h4)

/-- Literal heading of section 1 matched by the project-name regex
(`src/App.tsx` lines 404 and 508). -/
def projectHeader : String := "### 1. Nombre del proyecto o asunto"

/-- Alternatives of a greedy `\s*` at the current position: the remainders
after dropping a whitespace prefix, longest drop first. -/
def wsSplits : List Char → List (List Char)
  | [] => [[]]
  | c :: cs => if isWs c then wsSplits cs ++ [c :: cs] else [c :: cs]

/-- Alternatives of `\*?`, the marker-consuming one first. -/
def starSplits (l : List Char) : List (List Char) :=
  match l with
  | x :: cs => if x = '*' then [cs, x :: cs] else [x :: cs]
  | [] => [[]]

/-- Alternatives of the lazy dotall capture `(.*?)`, shortest capture
first, each paired with its remainder. -/
def captureSplits : List Char → List (List Char × List Char)
  | [] => [([], [])]
  | x :: xs => ([], x :: xs) :: (captureSplits xs).map fun p => (x :: p.1, p.2)

/-- Continuation guarded by a literal `\n`. -/
def nlDispatch (f : List Char → Option (List Char)) (l : List Char) :
    Option (List Char) :=
  match l with
  | x :: b => if x = '\n' then f b else none
  | [] => none

/-- Matcher of the final `\s*\n` of the project-name regex, returning the
pending capture on success. -/
def tailFinal (cap f : List Char) : Option (List Char) :=
  (wsSplits f).findSome? (nlDispatch fun _ => some cap)

/-- Matcher of `(.*?)\s*\n`, the lazy capture and its terminator. -/
def capScan (e : List Char) : Option (List Char) :=
  (captureSplits e).findSome? fun cap => tailFinal cap.1 cap.2

/-- Matcher of `\s*(.*?)\s*\n`. -/
def afterStar (d : List Char) : Option (List Char) :=
  (wsSplits d).findSome? capScan

/-- Matcher of `\*?\s*(.*?)\s*\n`. -/
def afterWs1 (c : List Char) : Option (List Char) :=
  (starSplits c).findSome? afterStar

/-- Matcher of `\s*\*?\s*(.*?)\s*\n`, the part after the first newline. -/
def tailAfterNl (b : List Char) : Option (List Char) :=
  (wsSplits b).findSome? afterWs1

/-- Backtracking matcher of the regex tail `\s*\n\s*\*?\s*(.*?)\s*\n`
after the literal header, in the regex engine's preference order (greedy
`\s*` and `\*?`, lazy `(.*?)`); returns capture group 1 of the first
successful assignment. -/
def tailMatch (rest : List Char) : Option (List Char) :=
  (wsSplits rest).findSome? (nlDispatch tailAfterNl)

/-- Scan of `rawMarkdown.match(projectNameRegex)`: the leftmost position
where the literal header matches and the tail succeeds. -/
def extractTitleL : List Char → Option (List Char)
  | [] => none
  | x :: xs =>
    if projectHeader.data.isPrefixOf (x :: xs) then
      match tailMatch (List.drop projectHeader.data.length (x :: xs)) with
      | some cap => some cap
      | none => extractTitleL xs
    else extractTitleL xs

/-- Project-name extraction of `renderContent` (`src/App.tsx` lines
508-510): the regex capture, trimmed, or the `No se especifica` sentinel
when the regex does not match. -/
def extractTitle (rawMarkdown : String) : String :=
  match extractTitleL rawMarkdown.data with
  | some cap => jsTrim ⟨cap⟩
  | none => "No se especifica"

theorem findSome_singleton {α β : Type} (f : α → Option β) (x : α) :
    List.findSome? f [x] = f x := by
  rw [List.findSome?_cons]
  cases f x <;> rfl

theorem findSome_cons_some {α β : Type} {f : α → Option β} {a : α} {b : β}
    (l : List α) (h : f a = some b) : List.findSome? f (a :: l) = some b := by
  rw [List.findSome?_cons, h]

theorem findSome_cons_none {α β : Type} {f : α → Option β} {a : α}
    (l : List α) (h : f a = none) :
    List.findSome? f (a :: l) = List.findSome? f l := by
  rw [List.findSome?_cons, h]

theorem findSome_congr {α β : Type} {f g : α → Option β} {l : List α}
    (h : ∀ x ∈ l, f x = g x) : List.findSome? f l = List.findSome? g l := by
  induction l with
  | nil => rfl
  | cons a as ih =>
    rw [List.findSome?_cons, List.findSome?_cons, h a (List.mem_cons_self a as),
      ih fun x hx => h x (List.mem_cons_of_mem a hx)]

theorem wsSplits_nonws {c : Char} (h : isWs c = false) (cs : List Char) :
    wsSplits (c :: cs) = [c :: cs] := by
  unfold wsSplits
  rw [if_neg (by rw [h]; exact Bool.false_ne_true)]

theorem wsSplits_ws {c : Char} (h : isWs c = true) (cs : List Char) :
    wsSplits (c :: cs) = wsSplits cs ++ [c :: cs] := by
  conv_lhs => unfold wsSplits
  rw [if_pos h]

theorem starSplits_nonstar {x : Char} (h : ¬x = '*') (cs : List Char) :
    starSplits (x :: cs) = [x :: cs] := by
  show (if x = '*' then [cs, x :: cs] else [x :: cs]) = [x :: cs]
  rw [if_neg h]

theorem nlDispatch_nonnl (f : List Char → Option (List Char)) {x : Char}
    (h : ¬x = '\n') (b : List Char) : nlDispatch f (x :: b) = none := by
  show (if x = '\n' then f b else none) = none
  rw [if_neg h]

theorem nlDispatch_nl (f : List Char → Option (List Char)) (b : List Char) :
    nlDispatch f ('\n' :: b) = f b := by
  show (if '\n' = '\n' then f b else none) = f b
  rw [if_pos rfl]

theorem takeWhile_append_all {p : Char → Bool} {X : List Char}
    (h : ∀ x ∈ X, p x = true) (Y : List Char) :
    (X ++ Y).takeWhile p = X ++ Y.takeWhile p := by
  induction X with
  | nil => simp
  | cons a as ih =>
    rw [List.cons_append, List.takeWhile_cons,
      if_pos (h a (List.mem_cons_self a as)),
      ih fun x hx => h x (List.mem_cons_of_mem a hx), List.cons_append]

theorem takeWhile_append_stop {p : Char → Bool} {X : List Char}
    (h : X.dropWhile p ≠ []) (Y : List Char) :
    (X ++ Y).takeWhile p = X.takeWhile p := by
  induction X with
  | nil => exact absurd rfl h
  | cons a as ih =>
    by_cases hp : p a = true
    · rw [List.dropWhile_cons, if_pos hp] at h
      rw [List.cons_append, List.takeWhile_cons, if_pos hp, List.takeWhile_cons,
        if_pos hp, ih h]
    · rw [List.cons_append, List.takeWhile_cons, if_neg hp, List.takeWhile_cons,
        if_neg hp]

/-- The final `\s*\n` matcher succeeds (with the pending capture) exactly
when the leading whitespace run of the remainder contains a newline. -/
theorem tailFinal_eq (cap f : List Char) :
    tailFinal cap f = if '\n' ∈ f.takeWhile isWs then some cap else none := by
  induction f with
  | nil =>
    show List.findSome? (nlDispatch fun _ => some cap) (wsSplits []) = _
    rw [show wsSplits [] = [[]] from rfl, findSome_singleton]
    show none = _
    simp [List.takeWhile]
  | cons x xs ih =>
    by_cases hws : isWs x = true
    · show List.findSome? (nlDispatch fun _ => some cap) (wsSplits (x :: xs)) = _
      rw [wsSplits_ws hws, List.findSome?_append, findSome_singleton]
      rw [show List.findSome? (nlDispatch fun _ => some cap) (wsSplits xs)
          = tailFinal cap xs from rfl, ih]
      rw [List.takeWhile_cons, if_pos hws]
      by_cases hmem : '\n' ∈ xs.takeWhile isWs
      · rw [if_pos hmem, if_pos (List.mem_cons_of_mem x hmem)]
        rfl
      · rw [if_neg hmem]
        by_cases hx : x = '\n'
        · subst hx
          rw [nlDispatch_nl, if_pos (List.mem_cons_self _ _)]
          rfl
        · rw [nlDispatch_nonnl _ hx, if_neg fun hmem' => by
            rcases List.mem_cons.mp hmem' with h1 | h2
            · exact hx h1.symm
            · exact hmem h2]
          rfl
    · have hwsf : isWs x = false := by
        cases h : isWs x with
        | false => rfl
        | true => exact absurd h hws
      show List.findSome? (nlDispatch fun _ => some cap) (wsSplits (x :: xs)) = _
      rw [wsSplits_nonws hwsf, findSome_singleton]
      have hx : ¬x = '\n' := fun he => by
        rw [he] at hwsf
        exact absurd hwsf (by decide)
      rw [nlDispatch_nonnl _ hx, List.takeWhile_cons, if_neg hws]
      simp

theorem findSome_opt_map {α β γ : Type} (f : α → Option β) (m : β → γ)
    (l : List α) :
    List.findSome? (fun x => (f x).map m) l = (List.findSome? f l).map m := by
  induction l with
  | nil => rfl
  | cons a as ih =>
    rw [List.findSome?_cons, List.findSome?_cons]
    cases f a with
    | none => simpa using ih
    | some b => rfl

/-- Success predicate form of the final matcher, as a named function. -/
def capG (p : List Char × List Char) : Option (List Char) :=
  if '\n' ∈ p.2.takeWhile isWs then some p.1 else none

theorem capScan_capG (e : List Char) :
    capScan e = (captureSplits e).findSome? capG :=
  findSome_congr fun x _ => by
    show tailFinal x.1 x.2 = capG x
    rw [tailFinal_eq]
    rfl

theorem captureSplits_cons (x : Char) (xs : List Char) :
    captureSplits (x :: xs)
      = ([], x :: xs) :: (captureSplits xs).map fun p => (x :: p.1, p.2) := rfl

theorem rtrimL_eq_nil_iff (X : List Char) :
    rtrimL X = [] ↔ ∀ c ∈ X, isWs c = true := by
  unfold rtrimL
  rw [List.reverse_eq_nil_iff, List.dropWhile_eq_nil_iff]
  constructor
  · intro h c hc
    exact h c (List.mem_reverse.mpr hc)
  · intro h c hc
    exact h c (List.mem_reverse.mp hc)

theorem rtrimL_singleton_nonws {t : Char} (h : isWs t = false) :
    rtrimL [t] = [t] := by
  unfold rtrimL
  rw [show ([t] : List Char).reverse = [t] from rfl, List.dropWhile_cons,
    if_neg (by rw [h]; exact Bool.false_ne_true)]
  rfl

theorem rtrimL_cons_nonws {t : Char} (h : isWs t = false) (X : List Char) :
    rtrimL (t :: X) = t :: rtrimL X := by
  rw [show (t :: X) = [t] ++ X from rfl, rtrimL_append_dichotomy]
  by_cases hcond : (X.reverse.dropWhile isWs).isEmpty = true
  · rw [if_pos hcond, rtrimL_singleton_nonws h]
    have h2 : rtrimL X = [] := by
      unfold rtrimL
      rw [List.isEmpty_iff.mp hcond]
      rfl
    rw [h2]
  · rw [if_neg hcond]
    rfl

theorem rtrimL_cons_ne (t : Char) {X : List Char} (hX : rtrimL X ≠ []) :
    rtrimL (t :: X) = t :: rtrimL X := by
  have hcond : ¬((X.reverse.dropWhile isWs).isEmpty = true) := fun hc => by
    refine hX ?_
    unfold rtrimL
    rw [List.isEmpty_iff.mp hc]
    rfl
  rw [show (t :: X) = [t] ++ X from rfl, rtrimL_append_dichotomy, if_neg hcond]
  rfl

theorem dropWhile_idem (p : Char → Bool) (l : List Char) :
    (l.dropWhile p).dropWhile p = l.dropWhile p := by
  induction l with
  | nil => rfl
  | cons a as ih =>
    by_cases hp : p a = true
    · rw [List.dropWhile_cons, if_pos hp, ih]
    · rw [List.dropWhile_cons, if_neg hp, List.dropWhile_cons, if_neg hp]

theorem rtrimL_idem (X : List Char) : rtrimL (rtrimL X) = rtrimL X := by
  unfold rtrimL
  rw [List.reverse_reverse, dropWhile_idem]

/-- Membership of the newline in the whitespace run of `X ++ '\n' :: r`,
for newline-free `X`, says exactly that `X` is all whitespace. -/
theorem nl_takeWhile_iff {X : List Char} (hX : '\n' ∉ X) (r : List Char) :
    ('\n' ∈ (X ++ '\n' :: r).takeWhile isWs) ↔ (∀ c ∈ X, isWs c = true) := by
  constructor
  · intro hmem
    by_contra hall
    have hdw : X.dropWhile isWs ≠ [] := fun hnil =>
      hall (List.dropWhile_eq_nil_iff.mp hnil)
    rw [takeWhile_append_stop hdw] at hmem
    exact hX ((List.takeWhile_sublist _).subset hmem)
  · intro hall
    rw [takeWhile_append_all hall]
    refine List.mem_append.mpr (Or.inr ?_)
    rw [List.takeWhile_cons, if_pos (by decide)]
    exact List.mem_cons_self _ _

theorem findSome_capG_map (t : Char) (l : List (List Char × List Char)) :
    List.findSome? capG (l.map fun p => (t :: p.1, p.2))
      = (List.findSome? capG l).map fun cs => t :: cs := by
  induction l with
  | nil => rfl
  | cons a as ih =>
    rw [List.map_cons, List.findSome?_cons, List.findSome?_cons]
    have h1 : capG (t :: a.1, a.2)
        = (capG a).map fun cs => t :: cs := by
      unfold capG
      by_cases hc : '\n' ∈ a.2.takeWhile isWs
      · rw [if_pos hc, if_pos hc]
        rfl
      · rw [if_neg hc, if_neg hc]
        rfl
    rw [h1, ih]
    cases capG a with
    | none => rfl
    | some b => rfl

/-- On a newline-free line `T` followed by `'\n' :: r`, the lazy capture
stage yields the right-trimmed line: trailing whitespace is matched by the
`\s*` before the terminating newline, and everything before it is the
shortest successful capture. -/
theorem capScan_eq {T : List Char} (hT : '\n' ∉ T) (r : List Char) :
    capScan (T ++ '\n' :: r) = some (rtrimL T) := by
  induction T with
  | nil =>
    rw [List.nil_append, capScan_capG, captureSplits_cons]
    refine findSome_cons_some _ ?_
    have hmem : '\n' ∈ ('\n' :: r).takeWhile isWs := by
      rw [List.takeWhile_cons, if_pos (by decide)]
      exact List.mem_cons_self _ _
    show (if '\n' ∈ ('\n' :: r).takeWhile isWs then some ([] : List Char)
        else none) = some (rtrimL [])
    rw [if_pos hmem]
    rfl
  | cons t T'' ih =>
    have ht : ¬t = '\n' := fun he => hT (List.mem_cons.mpr (Or.inl he.symm))
    have hT'' : '\n' ∉ T'' := fun hm => hT (List.mem_cons_of_mem _ hm)
    rw [List.cons_append, capScan_capG, captureSplits_cons]
    by_cases hall : ∀ c ∈ T'', isWs c = true
    · by_cases hws : isWs t = true
      · have hmem : '\n' ∈ (t :: (T'' ++ '\n' :: r)).takeWhile isWs := by
          rw [List.takeWhile_cons, if_pos hws]
          exact List.mem_cons_of_mem _ ((nl_takeWhile_iff hT'' r).mpr hall)
        refine findSome_cons_some _ ?_
        show (if '\n' ∈ (t :: (T'' ++ '\n' :: r)).takeWhile isWs
            then some ([] : List Char) else none) = some (rtrimL (t :: T''))
        rw [if_pos hmem]
        have hnil : rtrimL (t :: T'') = [] := by
          refine (rtrimL_eq_nil_iff _).mpr fun c hc => ?_
          rcases List.mem_cons.mp hc with h1 | h2
          · rw [h1]; exact hws
          · exact hall c h2
        rw [hnil]
      · have hhead : capG ([], t :: (T'' ++ '\n' :: r)) = none := by
          show (if '\n' ∈ (t :: (T'' ++ '\n' :: r)).takeWhile isWs
              then some ([] : List Char) else none) = none
          rw [List.takeWhile_cons, if_neg hws]
          simp
        have hwsf : isWs t = false := by
          cases h : isWs t with
          | false => rfl
          | true => exact absurd h hws
        rw [findSome_cons_none _ hhead, findSome_capG_map,
          show (captureSplits (T'' ++ '\n' :: r)).findSome? capG
            = capScan (T'' ++ '\n' :: r) from (capScan_capG _).symm,
          ih hT'', rtrimL_cons_nonws hwsf]
        rfl
    · have hnmem : '\n' ∉ (T'' ++ '\n' :: r).takeWhile isWs := fun hm =>
        hall ((nl_takeWhile_iff hT'' r).mp hm)
      have hhead : capG ([], t :: (T'' ++ '\n' :: r)) = none := by
        show (if '\n' ∈ (t :: (T'' ++ '\n' :: r)).takeWhile isWs
            then some ([] : List Char) else none) = none
        by_cases hws : isWs t = true
        · have hcond : '\n' ∉ t :: (T'' ++ '\n' :: r).takeWhile isWs :=
            fun hm => by
              rcases List.mem_cons.mp hm with h1 | h2
              · exact ht h1.symm
              · exact hnmem h2
          rw [List.takeWhile_cons, if_pos hws, if_neg hcond]
        · rw [List.takeWhile_cons, if_neg hws]
          simp
      have hne : rtrimL T'' ≠ [] := fun hnil =>
        hall ((rtrimL_eq_nil_iff _).mp hnil)
      rw [findSome_cons_none _ hhead, findSome_capG_map,
        show (captureSplits (T'' ++ '\n' :: r)).findSome? capG
          = capScan (T'' ++ '\n' :: r) from (capScan_capG _).symm,
        ih hT'', rtrimL_cons_ne t hne]
      rfl

/-- Full tail computation on a well-formed header/line boundary: the line
right after the newline starts with a non-whitespace, non-asterisk
character and is newline-terminated, so the match captures the
right-trimmed line. -/
theorem tailMatch_eq {c : Char} (hc : isWs c = false) (hstar : ¬c = '*')
    {cs : List Char} (hT : '\n' ∉ c :: cs) (r : List Char) :
    tailMatch ('\n' :: ((c :: cs) ++ '\n' :: r)) = some (rtrimL (c :: cs)) := by
  have hcnl : ¬c = '\n' := fun he => by
    rw [he] at hc
    exact absurd hc (by decide)
  rw [List.cons_append]
  unfold tailMatch
  rw [wsSplits_ws (show isWs '\n' = true by decide), wsSplits_nonws hc,
    List.singleton_append,
    findSome_cons_none _ (nlDispatch_nonnl _ hcnl _), findSome_singleton,
    nlDispatch_nl]
  unfold tailAfterNl
  rw [wsSplits_nonws hc, findSome_singleton]
  unfold afterWs1
  rw [starSplits_nonstar hstar, findSome_singleton]
  unfold afterStar
  rw [wsSplits_nonws hc, findSome_singleton, ← List.cons_append]
  exact capScan_eq hT r

theorem extractTitleL_step {x : Char} {xs : List Char}
    (hpre : projectHeader.data.isPrefixOf (x :: xs) = true) :
    extractTitleL (x :: xs)
      = match tailMatch (List.drop projectHeader.data.length (x :: xs)) with
        | some cap => some cap
        | none => extractTitleL xs := by
  conv_lhs => unfold extractTitleL
  rw [if_pos hpre]

theorem extractTitleL_at_start {r cap : List Char} (h : tailMatch r = some cap) :
    extractTitleL (projectHeader.data ++ r) = some cap := by
  have hshape : projectHeader.data ++ r
      = '#' :: ("## 1. Nombre del proyecto o asunto".data ++ r) := rfl
  have hpre : projectHeader.data.isPrefixOf
      ('#' :: ("## 1. Nombre del proyecto o asunto".data ++ r)) = true := by
    rw [← hshape]
    exact List.isPrefixOf_iff_prefix.mpr (List.prefix_append _ _)
  have hdrop : List.drop projectHeader.data.length
      ('#' :: ("## 1. Nombre del proyecto o asunto".data ++ r)) = r := by
    rw [← hshape]
    exact List.drop_left _ _
  rw [hshape, extractTitleL_step hpre, hdrop, h]

theorem jsTrim_rtrim_nonws {c : Char} (hc : isWs c = false) (cs : List Char) :
    jsTrim (String.mk (rtrimL (c :: cs))) = String.mk (rtrimL (c :: cs)) := by
  have h1 : rtrimL (c :: cs) = c :: rtrimL cs := rtrimL_cons_nonws hc cs
  show String.mk (jsTrimL (rtrimL (c :: cs))) = String.mk (rtrimL (c :: cs))
  rw [h1, jsTrimL_eq_rtrimL_of_head hc, ← h1, rtrimL_idem]

theorem extractTitle_line {T rest : String} {c : Char} {cs : List Char}
    (hTdata : T.data = c :: cs) (hc : isWs c = false) (hstar : ¬c = '*')
    (hnl : '\n' ∉ T.data) :
    extractTitle (projectHeader ++ "\n" ++ T ++ "\n" ++ rest)
      = String.mk (rtrimL T.data) := by
  have hdata : (projectHeader ++ "\n" ++ T ++ "\n" ++ rest).data
      = projectHeader.data ++ ('\n' :: (T.data ++ '\n' :: rest.data)) := by
    rw [String.data_append, String.data_append, String.data_append,
      String.data_append, show ("\n" : String).data = ['\n'] from rfl]
    simp [List.append_assoc]
  unfold extractTitle
  rw [hdata, hTdata,
    extractTitleL_at_start (tailMatch_eq hc hstar (hTdata ▸ hnl) rest.data)]
  exact jsTrim_rtrim_nonws hc cs

